import Mathlib

/-!
Verification development for libvxl, a voxel-map codec.

The repository ships only the public header `src/libvxl.h` (macros, struct
layouts and declarations); the function bodies of `libvxl.c` are not part of
the sources.  The position-key macros and the constants are therefore embedded
directly from the header, while every operation whose body is missing is
modelled from the specification (spec.md) and marked as such in its doc
comment.

Machine integers are modelled as `Nat`; where 32-bit wrap-around matters the
value is reduced modulo 2^32 explicitly.  Byte buffers are `List Nat` with
each element a byte value; 32-bit color words are serialized as four bytes in
little-endian order.
-/

namespace Libvxl

/-- Embedded from src/libvxl.h: the default color used when a block is solid
but has no explicit color record. -/
def DEFAULT_COLOR : Nat := 0x674028

/-- Embedded from src/libvxl.h: `pos_key(x,y,z) = ((y)<<20) | ((x)<<8) | (z)`,
mapping coordinates to a packed 32-bit key (12 bits x, 12 bits y, 8 bits z). -/
def pos_key (x y z : Nat) : Nat := (y <<< 20) ||| (x <<< 8) ||| z

/-- Embedded from src/libvxl.h: `key_discardz(key) = key & 0xFFFFFF00`,
masking off the depth bits to obtain a column identity. -/
def key_discardz (key : Nat) : Nat := key &&& 0xFFFFFF00

/-- Embedded from src/libvxl.h: `key_getx(key) = (key>>8)&0xFFF`. -/
def key_getx (key : Nat) : Nat := (key >>> 8) &&& 0xFFF

/-- Embedded from src/libvxl.h: `key_gety(key) = (key>>20)&0xFFF`. -/
def key_gety (key : Nat) : Nat := (key >>> 20) &&& 0xFFF

/-- Embedded from src/libvxl.h: `key_getz(key) = key & 0xFF`. -/
def key_getz (key : Nat) : Nat := key &&& 0xFF

/-- Embedded from src/libvxl.h: `struct libvxl_block`, a (position key, color)
pair.  Both 32-bit fields are modelled as `Nat` holding the 32-bit pattern. -/
structure libvxl_block where
  position : Nat
  color : Nat
deriving DecidableEq, Repr

/-- Modelled from the spec: the record-list lookup of §4.3 (`find` by exact
key, returning the stored color); the body of the chunk scan in libvxl.c is
not in the repository.  The spatial tiling only selects which list is
scanned and is observationally inert, so the store is modelled as one record
list. -/
def blockLookup : List libvxl_block → Nat → Option Nat
  | [], _ => none
  | b :: bs, key => if b.position = key then some b.color else blockLookup bs key

/-- Modelled from the spec: `upsert` of §4.3 — overwrite the color in place
when the key is found, otherwise append at the end (capacity growth is an
allocation detail invisible to a list model). -/
def upsertBlock : List libvxl_block → Nat → Nat → List libvxl_block
  | [], key, color => [⟨key, color⟩]
  | b :: bs, key, color =>
    if b.position = key then ⟨key, color⟩ :: bs else b :: upsertBlock bs key color

/-- Modelled from the spec: index of the first record with the given key,
used by `remove` of §4.3. -/
def findKeyIdx : List libvxl_block → Nat → Option Nat
  | [], _ => none
  | b :: bs, key =>
    if b.position = key then some 0 else (findKeyIdx bs key).map (· + 1)

/-- Modelled from the spec: `remove` of §4.3 — swap-with-last-and-shrink
(order not preserved), a no-op when the key is absent. -/
def removeKey (bs : List libvxl_block) (key : Nat) : List libvxl_block :=
  match findKeyIdx bs key with
  | none => bs
  | some i => (bs.set i (bs.getLastD ⟨0, 0⟩)).dropLast

/-- Embedded from src/libvxl.h: `struct libvxl_map`.  The per-voxel solidity
bitmap (`geometry`) is modelled as a flat list of bits with the linearization
of spec §4.2 (`index = x*height*depth + y*depth + z`); the chunk grid is
flattened into one record list (the tiling only selects which list is
scanned); the queue chunk (encoder scratch, reset each pass) lives inside the
encoder and the `streamed` guard flag of an unsupported usage pattern is not
modelled. -/
structure libvxl_map where
  width : Nat
  height : Nat
  depth : Nat
  geometry : List Bool
  blocks : List libvxl_block
deriving DecidableEq, Repr

/-- Linearization of the solidity bitmap, from spec §4.2. -/
def geomIdx (m : libvxl_map) (x y z : Nat) : Nat :=
  x * m.height * m.depth + y * m.depth + z

/-- Raw solidity-bitmap test (no bounds check, spec §4.2). -/
def solidBit (m : libvxl_map) (x y z : Nat) : Bool :=
  m.geometry.getD (geomIdx m x y z) false

/-- Bounds predicate of the public voxel API (spec §4.5): coordinates are C
ints, checked against [0,width) x [0,height) x [0,depth). -/
abbrev inMap (m : libvxl_map) (x y z : Int) : Prop :=
  0 ≤ x ∧ x < m.width ∧ 0 ≤ y ∧ y < m.height ∧ 0 ≤ z ∧ z < m.depth

/-- Modelled from the spec: the body of libvxl_map_issolid is not in the
repository; §4.5 — solidity-bitmap test, out-of-bounds is always non-solid. -/
def libvxl_map_issolid (m : libvxl_map) (x y z : Int) : Bool :=
  if inMap m x y z then solidBit m x.toNat y.toNat z.toNat else false

/-- Modelled from the spec: the body of libvxl_map_get is not in the
repository; §4.5 — out of bounds or air yields "no color" (0, the header's
error value); a solid voxel yields its explicit record's color, or
DEFAULT_COLOR when it has none. -/
def libvxl_map_get (m : libvxl_map) (x y z : Int) : Nat :=
  if inMap m x y z then
    if solidBit m x.toNat y.toNat z.toNat then
      (blockLookup m.blocks (pos_key x.toNat y.toNat z.toNat)).getD DEFAULT_COLOR
    else 0
  else 0

/-- Modelled from the spec: the body of libvxl_map_set is not in the
repository; §4.5 — bounds-check (no-op when out of bounds), set the solidity
bit, upsert an explicit record with the given color (reduced to its 32-bit
pattern, as the C int is). -/
def libvxl_map_set (m : libvxl_map) (x y z : Int) (color : Nat) : libvxl_map :=
  if inMap m x y z then
    { m with
      geometry := m.geometry.set (geomIdx m x.toNat y.toNat z.toNat) true,
      blocks := upsertBlock m.blocks (pos_key x.toNat y.toNat z.toNat)
        (color % 4294967296) }
  else m

/-- Modelled from the spec: the body of libvxl_map_setair is not in the
repository; §4.5 — bounds-check (no-op when out of bounds), clear the
solidity bit, remove any explicit record for the key. -/
def libvxl_map_setair (m : libvxl_map) (x y z : Int) : libvxl_map :=
  if inMap m x y z then
    { m with
      geometry := m.geometry.set (geomIdx m x.toNat y.toNat z.toNat) false,
      blocks := removeKey m.blocks (pos_key x.toNat y.toNat z.toNat) }
  else m

/-- Modelled from the spec: the body of libvxl_map_onsurface is not in the
repository; §4.5 — solid with at least one of the six axis neighbors
non-solid or out of bounds. -/
def libvxl_map_onsurface (m : libvxl_map) (x y z : Int) : Bool :=
  libvxl_map_issolid m x y z &&
    (!libvxl_map_issolid m (x + 1) y z || !libvxl_map_issolid m (x - 1) y z ||
     !libvxl_map_issolid m x (y + 1) z || !libvxl_map_issolid m x (y - 1) z ||
     !libvxl_map_issolid m x y (z + 1) || !libvxl_map_issolid m x y (z - 1))

/-- Modelled from the spec: the body of libvxl_map_gettop is not in the
repository; §4.5 — scan the column from z = 0 down to the first solid voxel
and fill the caller's int[2] (color, height); the caller's storage is left
untouched when out of bounds or when the column holds no solid voxel. -/
def libvxl_map_gettop (m : libvxl_map) (x y : Int) (result : Nat × Nat) :
    Nat × Nat :=
  if 0 ≤ x ∧ x < m.width ∧ 0 ≤ y ∧ y < m.height then
    match (List.range m.depth).find? (fun z => solidBit m x.toNat y.toNat z) with
    | some z => (libvxl_map_get m x y (z : Int), z)
    | none => result
  else result

/-- Modelled from the spec: the empty-map branch of libvxl_create (its body is
not in the repository); header §82 and spec §3 — a fresh map whose water-level
plane (last depth index) is solid with the implicit DEFAULT_COLOR (no records
are materialized for default-colored voxels). -/
def libvxl_create_empty (w h d : Nat) : libvxl_map :=
  { width := w, height := h, depth := d,
    geometry := (List.range (w * h * d)).map (fun i => i % d == d - 1),
    blocks := [] }

/-- One decoded/encodable column entry: the solidity bit and the optional
explicit color of one voxel. -/
abbrev ColEntry := Bool × Option Nat

/-- The column view of a map used by the encoder (spec §4.6): per depth index
the solidity bit and the chunk-store color for the exact key. -/
def colAt (m : libvxl_map) (x y : Nat) : List ColEntry :=
  (List.range m.depth).map fun z =>
    (solidBit m x y z, blockLookup m.blocks (pos_key x y z))

/-- Serialization of one 32-bit color word into four bytes (little-endian),
spec §6: columns interleave 4-byte span headers with 4-byte color words. -/
def word32 (c : Nat) : List Nat :=
  [c % 256, c / 256 % 256, c / 65536 % 256, c / 16777216 % 256]

/-- Modelled from the spec: one step of the encoder of §4.6 (the body of
libvxl.c's column encoder is not in the repository).  Per maximal solid run:
leading-air count A, top-color count S (maximal explicit run seen from
above), bottom-color count E (terminal run only: maximal explicit run seen
from below), interior length implicit; a non-terminal span stores its word
count N = 1 + S + interior, the terminal span stores N = 0 and extends to the
column's last depth index.  The fuel argument only bounds the structural
recursion and is always instantiated with the column length, which the loop
never exhausts. -/
def encodeColGo : Nat → List ColEntry → List Nat
  | 0, _ => []
  | fuel + 1, col =>
    let airs := col.takeWhile (fun e => !e.1)
    let rest := col.dropWhile (fun e => !e.1)
    match rest with
    | [] => [0, 0, 0, airs.length]
    | _ :: _ =>
      let run := rest.takeWhile (fun e => e.1)
      let rest2 := rest.dropWhile (fun e => e.1)
      let tops := run.takeWhile (fun e => e.2.isSome)
      match rest2 with
      | [] =>
        let afterS := run.drop tops.length
        let tail := afterS.reverse.takeWhile (fun e => e.2.isSome)
        [0, tops.length, tail.length, airs.length]
          ++ ((tops.map (fun e => e.2.getD 0)).map word32).flatten
          ++ ((tail.reverse.map (fun e => e.2.getD 0)).map word32).flatten
      | _ :: _ =>
        [run.length + 1, tops.length, 0, airs.length]
          ++ ((tops.map (fun e => e.2.getD 0)).map word32).flatten
          ++ encodeColGo fuel rest2

/-- Encoder for one column; the fuel (one per span, and each span except the
terminal one consumes at least one entry) is one more than the column
length. -/
def encodeCol (col : List ColEntry) : List Nat :=
  encodeColGo (col.length + 1) col

/-- The encoded bytes of the i-th column in the fixed iteration order
(y outer, x inner: column i covers x = i mod width, y = i div width). -/
def colBytes (m : libvxl_map) (i : Nat) : List Nat :=
  encodeCol (colAt m (i % m.width) (i / m.width))

/-- Modelled from the spec: the non-streaming encoder libvxl_write (its body
is not in the repository); §4.6/§6 — all columns in fixed order, y outer and
x inner, concatenated. -/
def libvxl_write (m : libvxl_map) : List Nat :=
  ((List.range (m.width * m.height)).map (colBytes m)).flatten

/-- Reads one 4-byte little-endian word from the byte stream. -/
def readWord : List Nat → Option (Nat × List Nat)
  | b0 :: b1 :: b2 :: b3 :: rest =>
    some (b0 + b1 * 256 + b2 * 65536 + b3 * 16777216, rest)
  | _ => none

/-- Reads k consecutive 4-byte color words. -/
def readWords : Nat → List Nat → Option (List Nat × List Nat)
  | 0, bytes => some ([], bytes)
  | k + 1, bytes =>
    match readWord bytes with
    | none => none
    | some (c, r) =>
      match readWords k r with
      | none => none
      | some (cs, r2) => some (c :: cs, r2)

/-- Modelled from the spec: the column decoder of §4.4 (the body of
libvxl.c's decoder is not in the repository).  Reads span headers
(word-count N, top-color count S, bottom-color count E, leading-air count A);
a span advances the cursor by A air, S explicit colors, the implicit interior
(N - 1 - S - E voxels for a nonzero N, the rest of the column for the
terminal N = 0 span) and E explicit colors; a header claiming more bytes or
voxels than remain fails the decode.  The fuel argument only bounds the
structural recursion (one unit per span) and every call site supplies the
byte count, which the loop never exhausts. -/
def decodeColGo (d : Nat) : Nat → Nat → List Nat → Option (List ColEntry × List Nat)
  | 0, _, _ => none
  | fuel + 1, pos, bytes =>
    match bytes with
    | n :: s :: e :: a :: tail =>
      (readWords s tail).bind (fun p1 =>
        (readWords e p1.2).bind (fun p2 =>
          if n = 0 then
            if pos + a + s + e ≤ d then
              some (List.replicate a ((false, none) : ColEntry)
                ++ p1.1.map (fun c => ((true, some c) : ColEntry))
                ++ List.replicate (d - (pos + a + s + e)) ((true, none) : ColEntry)
                ++ p2.1.map (fun c => ((true, some c) : ColEntry)), p2.2)
            else none
          else
            if 1 + s + e ≤ n ∧ pos + a + (n - 1) ≤ d then
              (decodeColGo d fuel (pos + a + (n - 1)) p2.2).map
                (fun pr => (List.replicate a ((false, none) : ColEntry)
                  ++ p1.1.map (fun c => ((true, some c) : ColEntry))
                  ++ List.replicate (n - 1 - s - e) ((true, none) : ColEntry)
                  ++ p2.1.map (fun c => ((true, some c) : ColEntry))
                  ++ pr.1, pr.2))
            else none))
    | _ => none

/-- Decode one full column starting at depth cursor 0. -/
def decodeCol (d : Nat) (bytes : List Nat) : Option (List ColEntry × List Nat) :=
  decodeColGo d bytes.length 0 bytes

/-- Modelled from the spec: §4.4 — decode the given number of columns in the
same fixed order the encoder uses; a malformed column fails the whole
decode. -/
def decodeCols (d : Nat) : Nat → List Nat → Option (List (List ColEntry))
  | 0, _ => some []
  | n + 1, bytes =>
    (decodeCol d bytes).bind (fun p =>
      (decodeCols d n p.2).map (fun cols => p.1 :: cols))

/-- Builds the in-memory map from the decoded columns: the solidity bitmap
bit of every voxel and one explicit record per decoded color, keyed with
pos_key. -/
def mapOfCols (w h d : Nat) (cols : List (List ColEntry)) : libvxl_map :=
  { width := w, height := h, depth := d,
    geometry := (List.range (w * h * d)).map (fun i =>
      ((cols.getD (i / d % h * w + i / (h * d)) []).getD (i % d)
        ((false, none) : ColEntry)).1),
    blocks := (List.range h).flatMap fun y => (List.range w).flatMap fun x =>
      (List.range d).flatMap fun z =>
        (((cols.getD (y * w + x) []).getD z ((false, none) : ColEntry)).2.map
          fun c => libvxl_block.mk (pos_key x y z) c).toList }

/-- Modelled from the spec: libvxl_create (its body is not in the
repository); header §70-84 and spec §6 — absent data yields the empty
water-filled map, otherwise the buffer is decoded column by column into a
fresh map (all-or-nothing on malformed input). -/
def libvxl_create (w h d : Nat) (data : Option (List Nat)) :
    Option libvxl_map :=
  match data with
  | none => some (libvxl_create_empty w h d)
  | some bytes =>
    match decodeCols d (w * h) bytes with
    | none => none
    | some cols => some (mapOfCols w h d cols)

/-- Embedded from src/libvxl.h: `struct libvxl_stream`, reduced to the state
the byte stream depends on — the map, the cursor of the next column to
encode, the pending bytes encoded but not yet handed out, and the per-call
byte quota.  The precomputed chunk-offset table is derived data and the
buffer pointers are allocation details. -/
structure libvxl_stream where
  map : libvxl_map
  cursor : Nat
  pending : List Nat
  chunk_size : Nat
deriving DecidableEq, Repr

/-- Modelled from the spec: the function libvxl_stream (its body is not in
the repository); §4.7 — open a stream over a map with a per-call quota. -/
def libvxl_stream_start (m : libvxl_map) (chunk_size : Nat) : libvxl_stream :=
  { map := m, cursor := 0, pending := [], chunk_size := chunk_size }

/-- Encodes further columns into the pending buffer until it reaches the
quota or the columns are exhausted; the fuel is the count of remaining
columns, which the loop never exhausts. -/
def fillPendingGo (m : libvxl_map) (q : Nat) :
    Nat → List Nat → Nat → List Nat × Nat
  | 0, pending, cursor => (pending, cursor)
  | fuel + 1, pending, cursor =>
    if q ≤ pending.length ∨ m.width * m.height ≤ cursor then (pending, cursor)
    else fillPendingGo m q fuel (pending ++ colBytes m cursor) (cursor + 1)

/-- Modelled from the spec: libvxl_stream_read (its body is not in the
repository); §4.7 — drain pending bytes up to the quota, encoding further
columns as needed and keeping any excess pending; an empty result signals the
end of the stream. -/
def libvxl_stream_read (s : libvxl_stream) : List Nat × libvxl_stream :=
  let fc := fillPendingGo s.map s.chunk_size
    (s.map.width * s.map.height - s.cursor) s.pending s.cursor
  (fc.1.take s.chunk_size,
    { s with cursor := fc.2, pending := fc.1.drop s.chunk_size })

/-- Iterates libvxl_stream_read, concatenating the outputs until a call
returns zero bytes; the fuel bounds the iteration count. -/
def drainStream : Nat → libvxl_stream → List Nat
  | 0, _ => []
  | fuel + 1, s =>
    if (libvxl_stream_read s).1.isEmpty then []
    else (libvxl_stream_read s).1 ++ drainStream fuel (libvxl_stream_read s).2

/-- The bytes a stream has yet to produce: pending bytes followed by the
encodings of the columns not yet visited. -/
def streamRemaining (s : libvxl_stream) : List Nat :=
  s.pending ++ (((List.range (s.map.width * s.map.height)).drop s.cursor).map
    (colBytes s.map)).flatten

/-- Well-formedness of a column view, guaranteed by the library's invariants
for every map built by create/set/setair: an air entry carries no color,
every color fits in 32 bits, and an implicit solid entry (solid but without
a record — the water-level fill) only occurs at the column's last depth
index. -/
def ColWF (col : List ColEntry) : Prop :=
  (∀ e ∈ col, e.1 = false → e.2 = none) ∧
  (∀ e ∈ col, ∀ c, e.2 = some c → c < 4294967296) ∧
  (∀ i, ∀ h : i < col.length, col.get ⟨i, h⟩ = ((true, none) : ColEntry) →
    i + 1 = col.length)

/-- The invariant of every map the library can build (spec §3, §4.2, §4.3):
dimensions within the format limits, a full-size solidity bitmap, a
duplicate-free chunk store whose records all carry canonical in-bounds keys,
32-bit colors and a set solidity bit, and implicit solid voxels (set bit, no
record) only on the bottom plane. -/
structure MapInv (m : libvxl_map) : Prop where
  hw : m.width ≤ 4096
  hh : m.height ≤ 4096
  hd : m.depth ≤ 256
  hlen : m.geometry.length = m.width * m.height * m.depth
  hnd : m.blocks.Pairwise (fun a b => a.position ≠ b.position)
  hkeys : ∀ b ∈ m.blocks, ∃ x y z, x < m.width ∧ y < m.height ∧ z < m.depth ∧
    b.position = pos_key x y z ∧ b.color < 4294967296 ∧ solidBit m x y z = true
  himpl : ∀ x y z, x < m.width → y < m.height → z < m.depth →
    solidBit m x y z = true → blockLookup m.blocks (pos_key x y z) = none →
    z + 1 = m.depth

/-- The maps reachable through the public API: created empty within the
format limits, then mutated by set/setair. -/
inductive Reachable : libvxl_map → Prop
  | created (w h d : Nat) (hw : w ≤ 4096) (hh : h ≤ 4096) (hd : d ≤ 256) :
      Reachable (libvxl_create_empty w h d)
  | set (m : libvxl_map) (x y z : Int) (c : Nat) (hm : Reachable m) :
      Reachable (libvxl_map_set m x y z c)
  | setair (m : libvxl_map) (x y z : Int) (hm : Reachable m) :
      Reachable (libvxl_map_setair m x y z)

/-- The columns of a map in the encoder's fixed order (y outer, x inner). -/
def colsOf (m : libvxl_map) : List (List ColEntry) :=
  (List.range (m.width * m.height)).map
    (fun i => colAt m (i % m.width) (i / m.width))

theorem pos_key_eq (x y z : Nat) (hx : x < 4096) (hz : z < 256) :
    pos_key x y z = y * 2 ^ 20 + x * 2 ^ 8 + z := by
  unfold pos_key
  have h1 : x <<< 8 = 2 ^ 8 * x := by
    rw [Nat.shiftLeft_eq]; ring
  have h2 : y <<< 20 = 2 ^ 20 * y := by
    rw [Nat.shiftLeft_eq]; ring
  have h3 : (x <<< 8) ||| z = 2 ^ 8 * x + z := by
    rw [h1, ← Nat.mul_add_lt_is_or (by omega) x]
  have h4 : 2 ^ 8 * x + z < 2 ^ 20 := by omega
  rw [Nat.lor_assoc, h3, h2, ← Nat.mul_add_lt_is_or h4 y]
  ring

theorem key_getx_eq (k : Nat) : key_getx k = k / 2 ^ 8 % 2 ^ 12 := by
  unfold key_getx
  rw [Nat.shiftRight_eq_div_pow]
  have : (0xFFF : Nat) = 2 ^ 12 - 1 := by norm_num
  rw [this, Nat.and_pow_two_sub_one_eq_mod]

theorem key_gety_eq (k : Nat) : key_gety k = k / 2 ^ 20 % 2 ^ 12 := by
  unfold key_gety
  rw [Nat.shiftRight_eq_div_pow]
  have : (0xFFF : Nat) = 2 ^ 12 - 1 := by norm_num
  rw [this, Nat.and_pow_two_sub_one_eq_mod]

theorem key_getz_eq (k : Nat) : key_getz k = k % 2 ^ 8 := by
  unfold key_getz
  have : (0xFF : Nat) = 2 ^ 8 - 1 := by norm_num
  rw [this, Nat.and_pow_two_sub_one_eq_mod]

theorem key_roundtrip (x y z : Nat) (hx : x < 4096) (hy : y < 4096)
    (hz : z < 256) :
    key_getx (pos_key x y z) = x ∧ key_gety (pos_key x y z) = y ∧
      key_getz (pos_key x y z) = z := by
  rw [pos_key_eq x y z hx hz, key_getx_eq, key_gety_eq, key_getz_eq]
  refine ⟨?_, ?_, ?_⟩ <;> omega

theorem pos_key_inj {x1 y1 z1 x2 y2 z2 : Nat}
    (hx1 : x1 < 4096) (hy1 : y1 < 4096) (hz1 : z1 < 256)
    (hx2 : x2 < 4096) (hy2 : y2 < 4096) (hz2 : z2 < 256)
    (h : pos_key x1 y1 z1 = pos_key x2 y2 z2) : x1 = x2 ∧ y1 = y2 ∧ z1 = z2 := by
  rw [pos_key_eq x1 y1 z1 hx1 hz1, pos_key_eq x2 y2 z2 hx2 hz2] at h
  refine ⟨?_, ?_, ?_⟩ <;> omega

theorem blockLookup_eq_none {bs : List libvxl_block} {key : Nat} :
    blockLookup bs key = none ↔ ∀ b ∈ bs, b.position ≠ key := by
  induction bs with
  | nil => simp [blockLookup]
  | cons b bs ih =>
    by_cases h : b.position = key <;> simp [blockLookup, h, ih]

theorem mem_of_blockLookup {bs : List libvxl_block} {key c : Nat}
    (h : blockLookup bs key = some c) : (⟨key, c⟩ : libvxl_block) ∈ bs := by
  induction bs with
  | nil => simp [blockLookup] at h
  | cons b bs ih =>
    by_cases hb : b.position = key
    · simp [blockLookup, hb] at h
      have hbe : b = ⟨key, c⟩ := by cases b; simp_all
      rw [← hbe]
      exact List.mem_cons_self _ _
    · simp [blockLookup, hb] at h
      exact List.mem_cons_of_mem _ (ih h)

theorem blockLookup_of_mem {bs : List libvxl_block} {key c : Nat}
    (hnd : bs.Pairwise (fun a b => a.position ≠ b.position))
    (h : (⟨key, c⟩ : libvxl_block) ∈ bs) : blockLookup bs key = some c := by
  induction bs with
  | nil => simp at h
  | cons b bs ih =>
    rcases List.mem_cons.mp h with h1 | h1
    · subst h1; simp [blockLookup]
    · have hb : b.position ≠ key := by
        have := (List.pairwise_cons.mp hnd).1 _ h1
        simpa using this
      simp [blockLookup, hb]
      exact ih (List.pairwise_cons.mp hnd).2 h1

theorem blockLookup_upsert_self (bs : List libvxl_block) (key c : Nat) :
    blockLookup (upsertBlock bs key c) key = some c := by
  induction bs with
  | nil => simp [upsertBlock, blockLookup]
  | cons b bs ih =>
    by_cases hb : b.position = key <;>
      simp [upsertBlock, hb, blockLookup, ih]

theorem blockLookup_upsert_ne (bs : List libvxl_block) {key key' : Nat}
    (c : Nat) (h : key' ≠ key) :
    blockLookup (upsertBlock bs key c) key' = blockLookup bs key' := by
  have h2 : key ≠ key' := Ne.symm h
  induction bs with
  | nil => simp [upsertBlock, blockLookup, h2]
  | cons b bs ih =>
    by_cases hb : b.position = key
    · simp [upsertBlock, hb, blockLookup, h2]
    · simp [upsertBlock, hb, blockLookup, ih]

theorem mem_upsertBlock {bs : List libvxl_block} {key c : Nat}
    {b : libvxl_block} (h : b ∈ upsertBlock bs key c) :
    b ∈ bs ∨ b = ⟨key, c⟩ := by
  induction bs with
  | nil => simp [upsertBlock] at h; right; exact h
  | cons a bs ih =>
    by_cases ha : a.position = key
    · simp [upsertBlock, ha] at h
      rcases h with h | h
      · right; exact h
      · left; exact List.mem_cons_of_mem _ h
    · simp [upsertBlock, ha] at h
      rcases h with h | h
      · left; simp [h]
      · rcases ih h with h1 | h1
        · left; exact List.mem_cons_of_mem _ h1
        · right; exact h1

theorem upsertBlock_pairwise {bs : List libvxl_block} {key c : Nat}
    (h : bs.Pairwise (fun a b => a.position ≠ b.position)) :
    (upsertBlock bs key c).Pairwise (fun a b => a.position ≠ b.position) := by
  induction bs with
  | nil => simp [upsertBlock]
  | cons a bs ih =>
    rcases List.pairwise_cons.mp h with ⟨h1, h2⟩
    by_cases ha : a.position = key
    · have he : upsertBlock (a :: bs) key c = ⟨key, c⟩ :: bs := by
        simp [upsertBlock, ha]
      rw [he]
      refine List.pairwise_cons.mpr ⟨?_, h2⟩
      intro b hb
      have := h1 b hb
      simpa [← ha] using this
    · have he : upsertBlock (a :: bs) key c = a :: upsertBlock bs key c := by
        simp [upsertBlock, ha]
      rw [he]
      refine List.pairwise_cons.mpr ⟨?_, ih h2⟩
      intro b hb
      rcases mem_upsertBlock hb with hb1 | hb1
      · exact h1 _ hb1
      · subst hb1; simpa using ha

theorem upsertBlock_idem (bs : List libvxl_block) (key c : Nat) :
    upsertBlock (upsertBlock bs key c) key c = upsertBlock bs key c := by
  induction bs with
  | nil => simp [upsertBlock]
  | cons a bs ih =>
    by_cases ha : a.position = key <;> simp [upsertBlock, ha, ih]

theorem findKeyIdx_spec {bs : List libvxl_block} {key i : Nat}
    (h : findKeyIdx bs key = some i) :
    ∃ hi : i < bs.length, (bs.get ⟨i, hi⟩).position = key := by
  induction bs generalizing i with
  | nil => simp [findKeyIdx] at h
  | cons a bs ih =>
    by_cases ha : a.position = key
    · simp [findKeyIdx, ha] at h
      subst h
      exact ⟨by simp, ha⟩
    · simp [findKeyIdx, ha] at h
      rcases h with ⟨j, hj, rfl⟩
      rcases ih hj with ⟨hlt, hget⟩
      exact ⟨by simpa using hlt, by simpa using hget⟩

theorem findKeyIdx_eq_none {bs : List libvxl_block} {key : Nat} :
    findKeyIdx bs key = none ↔ blockLookup bs key = none := by
  induction bs with
  | nil => simp [findKeyIdx, blockLookup]
  | cons a bs ih =>
    by_cases ha : a.position = key <;> simp [findKeyIdx, blockLookup, ha, ih]

theorem posNeSymm :
    Symmetric (fun a b : libvxl_block => a.position ≠ b.position) :=
  fun _ _ h => Ne.symm h

theorem getLastD_eq_of_ne_nil {α : Type} {l : List α} (h : l ≠ []) (d d' : α) :
    l.getLastD d = l.getLastD d' := by
  cases l with
  | nil => simp at h
  | cons a t => rw [List.getLastD_cons, List.getLastD_cons]

theorem set_last_dropLast_perm {α : Type} (l : List α) (d : α) (i : Nat)
    (h : i < l.length) :
    ((l.set i (l.getLastD d)).dropLast).Perm (l.eraseIdx i) := by
  induction l generalizing i d with
  | nil => simp at h
  | cons a t ih =>
    cases i with
    | zero =>
      cases t with
      | nil => simp [List.getLastD]
      | cons b t' =>
        have hne : (b :: t' : List α) ≠ [] := by simp
        have hL : (a :: b :: t').getLastD d = (b :: t').getLast hne := by
          rw [List.getLastD_cons, List.getLastD_cons, List.getLast_eq_getLastD]
        rw [List.set_cons_zero, hL, List.dropLast_cons_of_ne_nil hne,
          List.eraseIdx_cons_zero]
        have hsplit : (b :: t').dropLast ++ [(b :: t').getLast hne] = b :: t' :=
          List.dropLast_concat_getLast hne
        have hp : (((b :: t').getLast hne) :: (b :: t').dropLast).Perm
            ((b :: t').dropLast ++ [(b :: t').getLast hne]) :=
          (List.perm_append_singleton _ _).symm
        have h3 : ((b :: t').dropLast ++ [(b :: t').getLast hne]).Perm
            (b :: t') := by
          rw [hsplit]
        exact hp.trans h3
    | succ j =>
      have hj : j < t.length := by simpa using h
      have hset : t.set j (t.getLastD a) ≠ [] := by
        intro hc
        have hl2 := congrArg List.length hc
        simp at hl2
        rw [hl2] at hj
        simp at hj
      rw [List.set_cons_succ, List.getLastD_cons,
        List.dropLast_cons_of_ne_nil hset, List.eraseIdx_cons_succ]
      exact (ih a j hj).cons a

theorem perm_get_cons_eraseIdx {α : Type} (l : List α) (i : Nat)
    (h : i < l.length) : l.Perm (l.get ⟨i, h⟩ :: l.eraseIdx i) := by
  induction l generalizing i with
  | nil => simp at h
  | cons a t ih =>
    cases i with
    | zero => simp
    | succ j =>
      have hj : j < t.length := by simpa using h
      have p1 : (a :: t).Perm (a :: (t.get ⟨j, hj⟩ :: t.eraseIdx j)) :=
        (ih j hj).cons a
      have p2 : (a :: t.get ⟨j, hj⟩ :: t.eraseIdx j).Perm
          (t.get ⟨j, hj⟩ :: a :: t.eraseIdx j) := List.Perm.swap _ _ _
      have p3 := p1.trans p2
      simpa using p3

theorem removeKey_of_lookup_none {bs : List libvxl_block} {key : Nat}
    (h : blockLookup bs key = none) : removeKey bs key = bs := by
  unfold removeKey
  rw [findKeyIdx_eq_none.mpr h]

theorem removeKey_perm_eraseIdx {bs : List libvxl_block} {key i : Nat}
    (h : findKeyIdx bs key = some i) :
    (removeKey bs key).Perm (bs.eraseIdx i) := by
  unfold removeKey
  rw [h]
  exact set_last_dropLast_perm bs ⟨0, 0⟩ i (findKeyIdx_spec h).1

theorem perm_cons_removeKey {bs : List libvxl_block} {key i : Nat}
    (h : findKeyIdx bs key = some i) :
    bs.Perm ((bs.get ⟨i, (findKeyIdx_spec h).1⟩) :: removeKey bs key) := by
  refine (perm_get_cons_eraseIdx bs i (findKeyIdx_spec h).1).trans ?_
  exact ((removeKey_perm_eraseIdx h).symm).cons _

theorem mem_removeKey {bs : List libvxl_block} {key : Nat}
    {b : libvxl_block} (h : b ∈ removeKey bs key) : b ∈ bs := by
  rcases hf : findKeyIdx bs key with _ | i
  · unfold removeKey at h
    rw [hf] at h
    exact h
  · have hperm := removeKey_perm_eraseIdx hf
    exact List.mem_of_mem_eraseIdx (hperm.mem_iff.mp h)

theorem removeKey_pairwise {bs : List libvxl_block} {key : Nat}
    (h : bs.Pairwise (fun a b => a.position ≠ b.position)) :
    (removeKey bs key).Pairwise (fun a b => a.position ≠ b.position) := by
  rcases hf : findKeyIdx bs key with _ | i
  · unfold removeKey
    rw [hf]
    exact h
  · have hperm := removeKey_perm_eraseIdx hf
    have he : (bs.eraseIdx i).Pairwise (fun a b => a.position ≠ b.position) :=
      List.Pairwise.eraseIdx i h
    exact (List.Perm.pairwise_iff (fun hab => Ne.symm hab) hperm).mpr he

theorem removeKey_pos_ne {bs : List libvxl_block} {key : Nat}
    (hnd : bs.Pairwise (fun a b => a.position ≠ b.position))
    {b : libvxl_block} (h : b ∈ removeKey bs key) : b.position ≠ key := by
  rcases hf : findKeyIdx bs key with _ | i
  · have hl : blockLookup bs key = none := findKeyIdx_eq_none.mp hf
    exact blockLookup_eq_none.mp hl b (by
      unfold removeKey at h
      rw [hf] at h
      exact h)
  · have hperm := perm_cons_removeKey hf
    have hp := (List.Perm.pairwise_iff (fun hab => Ne.symm hab) hperm).mp hnd
    rcases List.pairwise_cons.mp hp with ⟨h1, _⟩
    have h1b := h1 b h
    rw [(findKeyIdx_spec hf).2] at h1b
    exact Ne.symm h1b

theorem blockLookup_removeKey_self {bs : List libvxl_block} {key : Nat}
    (hnd : bs.Pairwise (fun a b => a.position ≠ b.position)) :
    blockLookup (removeKey bs key) key = none :=
  blockLookup_eq_none.mpr fun _ hb => removeKey_pos_ne hnd hb

theorem blockLookup_removeKey_ne {bs : List libvxl_block} {key key' : Nat}
    (hnd : bs.Pairwise (fun a b => a.position ≠ b.position))
    (h : key' ≠ key) :
    blockLookup (removeKey bs key) key' = blockLookup bs key' := by
  rcases hf : findKeyIdx bs key with _ | i
  · unfold removeKey
    rw [hf]
  · rcases hl : blockLookup bs key' with _ | c
    · refine blockLookup_eq_none.mpr fun b hb => ?_
      exact blockLookup_eq_none.mp hl b (mem_removeKey hb)
    · have hmem : (⟨key', c⟩ : libvxl_block) ∈ bs := mem_of_blockLookup hl
      have hperm := perm_cons_removeKey hf
      have hmem2 := hperm.mem_iff.mp hmem
      rcases List.mem_cons.mp hmem2 with h1 | h1
      · exfalso
        apply h
        have h2 := congrArg libvxl_block.position h1
        rw [(findKeyIdx_spec hf).2] at h2
        exact h2
      · exact blockLookup_of_mem (removeKey_pairwise hnd) h1

theorem removeKey_idem {bs : List libvxl_block} {key : Nat}
    (hnd : bs.Pairwise (fun a b => a.position ≠ b.position)) :
    removeKey (removeKey bs key) key = removeKey bs key :=
  removeKey_of_lookup_none (blockLookup_removeKey_self hnd)

theorem getD_set_self {α : Type} {l : List α} {i : Nat} (h : i < l.length)
    (b dv : α) : (l.set i b).getD i dv = b := by
  simp [List.getElem?_set_self h]

theorem getD_set_ne {α : Type} {l : List α} {i j : Nat} (h : i ≠ j)
    (b dv : α) : (l.set i b).getD j dv = l.getD j dv := by
  simp [List.getElem?_set_ne h]

theorem geomIdx_lt {w h d x y z : Nat} (hx : x < w) (hy : y < h) (hz : z < d) :
    x * h * d + y * d + z < w * h * d := by
  have h1 : y * d + z < h * d := by
    calc y * d + z < y * d + d := by omega
      _ = (y + 1) * d := by ring
      _ ≤ h * d := Nat.mul_le_mul (by omega) (Nat.le_refl d)
  calc x * h * d + y * d + z = x * (h * d) + (y * d + z) := by ring
    _ < x * (h * d) + h * d := by omega
    _ = (x + 1) * (h * d) := by ring
    _ ≤ w * (h * d) := Nat.mul_le_mul (by omega) (Nat.le_refl (h * d))
    _ = w * h * d := by ring

theorem geomIdx_decomp {h d x y z : Nat} (hy : y < h) (hz : z < d) :
    (x * h * d + y * d + z) / (h * d) = x ∧
    (x * h * d + y * d + z) / d % h = y ∧
    (x * h * d + y * d + z) % d = z := by
  have hd : 0 < d := by omega
  have hhd : 0 < h * d := Nat.mul_pos (by omega) hd
  have e1 : x * h * d + y * d + z = h * d * x + (y * d + z) := by ring
  have e2 : x * h * d + y * d + z = d * (x * h + y) + z := by ring
  refine ⟨?_, ?_, ?_⟩
  · rw [e1, Nat.mul_add_div hhd]
    have : (y * d + z) / (h * d) = 0 := Nat.div_eq_of_lt (by
      calc y * d + z < (y + 1) * d := by ring_nf; omega
        _ ≤ h * d := Nat.mul_le_mul (by omega) (Nat.le_refl d))
    omega
  · rw [e2, Nat.mul_add_div hd, Nat.div_eq_of_lt hz, Nat.add_zero,
      Nat.mul_comm x h, Nat.mul_add_mod]
    exact Nat.mod_eq_of_lt hy
  · rw [e2, Nat.mul_add_mod]
    exact Nat.mod_eq_of_lt hz

theorem geomIdx_inj {m : libvxl_map} {x1 y1 z1 x2 y2 z2 : Nat}
    (hx1 : x1 < m.width) (hy1 : y1 < m.height) (hz1 : z1 < m.depth)
    (hx2 : x2 < m.width) (hy2 : y2 < m.height) (hz2 : z2 < m.depth)
    (h : geomIdx m x1 y1 z1 = geomIdx m x2 y2 z2) :
    x1 = x2 ∧ y1 = y2 ∧ z1 = z2 := by
  have d1 := geomIdx_decomp (h := m.height) (d := m.depth) (x := x1) hy1 hz1
  have d2 := geomIdx_decomp (h := m.height) (d := m.depth) (x := x2) hy2 hz2
  unfold geomIdx at h
  refine ⟨?_, ?_, ?_⟩
  · rw [← d1.1, ← d2.1, h]
  · rw [← d1.2.1, ← d2.2.1, h]
  · rw [← d1.2.2, ← d2.2.2, h]

theorem create_empty_geometry_length (w h d : Nat) :
    (libvxl_create_empty w h d).geometry.length = w * h * d := by
  simp [libvxl_create_empty]

theorem setair_unfold (m : libvxl_map) (x y z : Int) (hin : inMap m x y z) :
    libvxl_map_setair m x y z =
      { m with
        geometry := m.geometry.set (geomIdx m x.toNat y.toNat z.toNat) false,
        blocks := removeKey m.blocks (pos_key x.toNat y.toNat z.toNat) } := by
  rw [libvxl_map_setair, if_pos hin]

theorem set_unfold (m : libvxl_map) (x y z : Int) (c : Nat)
    (hin : inMap m x y z) :
    libvxl_map_set m x y z c =
      { m with
        geometry := m.geometry.set (geomIdx m x.toNat y.toNat z.toNat) true,
        blocks := upsertBlock m.blocks (pos_key x.toNat y.toNat z.toNat)
          (c % 4294967296) } := by
  rw [libvxl_map_set, if_pos hin]

theorem get_set_self (m : libvxl_map) (x y z : Int) (c : Nat)
    (hin : inMap m x y z)
    (hlen : m.geometry.length = m.width * m.height * m.depth) :
    libvxl_map_get (libvxl_map_set m x y z c) x y z = c % 4294967296 ∧
    libvxl_map_issolid (libvxl_map_set m x y z c) x y z = true := by
  obtain ⟨h1, h2, h3, h4, h5, h6⟩ := hin
  have hxw : x.toNat < m.width := by omega
  have hyh : y.toNat < m.height := by omega
  have hzd : z.toNat < m.depth := by omega
  have hidx : geomIdx m x.toNat y.toNat z.toNat < m.geometry.length := by
    rw [hlen]
    exact geomIdx_lt hxw hyh hzd
  have hin' : inMap m x y z := ⟨h1, h2, h3, h4, h5, h6⟩
  rw [libvxl_map_set, if_pos hin']
  constructor
  · rw [libvxl_map_get, if_pos hin']
    have hbit : solidBit
        { m with
          geometry := m.geometry.set (geomIdx m x.toNat y.toNat z.toNat) true,
          blocks := upsertBlock m.blocks (pos_key x.toNat y.toNat z.toNat)
            (c % 4294967296) } x.toNat y.toNat z.toNat = true := by
      unfold solidBit geomIdx
      exact getD_set_self (by simpa [geomIdx] using hidx) _ _
    rw [hbit]
    simp [blockLookup_upsert_self]
  · rw [libvxl_map_issolid, if_pos hin']
    unfold solidBit geomIdx
    exact getD_set_self (by simpa [geomIdx] using hidx) _ _

/-- C2: for every map and every coordinate outside the bounds
[0,width) x [0,height) x [0,depth), issolid returns false, get returns the
"no color" value 0, and set/setair leave the map completely unchanged. -/
theorem claim_C2_bounds (m : libvxl_map) (x y z : Int) (c : Nat)
    (h : ¬ inMap m x y z) :
    libvxl_map_issolid m x y z = false ∧ libvxl_map_get m x y z = 0 ∧
    libvxl_map_set m x y z c = m ∧ libvxl_map_setair m x y z = m := by
  rw [libvxl_map_issolid, if_neg h, libvxl_map_get, if_neg h,
    libvxl_map_set, if_neg h, libvxl_map_setair, if_neg h]
  exact ⟨rfl, rfl, rfl, rfl⟩

/-- Witness for C2 at a concrete map and out-of-bounds coordinate. -/
theorem claim_C2_bounds_witness :
    libvxl_map_issolid (libvxl_create_empty 2 2 2) (-1) 0 0 = false ∧
    libvxl_map_get (libvxl_create_empty 2 2 2) (-1) 0 0 = 0 ∧
    libvxl_map_set (libvxl_create_empty 2 2 2) (-1) 0 0 5 =
      libvxl_create_empty 2 2 2 ∧
    libvxl_map_setair (libvxl_create_empty 2 2 2) (-1) 0 0 =
      libvxl_create_empty 2 2 2 :=
  claim_C2_bounds (libvxl_create_empty 2 2 2) (-1) 0 0 5 (by decide)

/-- C3: for x, y below 4096 and z below 256, the packed position key is
inverted exactly by the three extraction macros. -/
theorem claim_C3_key_roundtrip (x y z : Nat) (hx : x < 4096) (hy : y < 4096)
    (hz : z < 256) :
    key_getx (pos_key x y z) = x ∧ key_gety (pos_key x y z) = y ∧
      key_getz (pos_key x y z) = z :=
  key_roundtrip x y z hx hy hz

/-- Witness for C3 at concrete coordinates. -/
theorem claim_C3_key_roundtrip_witness :
    key_getx (pos_key 4095 17 255) = 4095 ∧
    key_gety (pos_key 4095 17 255) = 17 ∧
    key_getz (pos_key 4095 17 255) = 255 :=
  claim_C3_key_roundtrip 4095 17 255 (by decide) (by decide) (by decide)

/-- C4: on the packed 32-bit key values (compared as the unsigned 32-bit
numbers they are), the order of keys is exactly the lexicographic order of
(y, x, z), and keys are equal exactly when the coordinate triples are. -/
theorem claim_C4_key_order (x1 y1 z1 x2 y2 z2 : Nat)
    (hx1 : x1 < 4096) (hy1 : y1 < 4096) (hz1 : z1 < 256)
    (hx2 : x2 < 4096) (hy2 : y2 < 4096) (hz2 : z2 < 256) :
    (pos_key x1 y1 z1 < pos_key x2 y2 z2 ↔
      (y1 < y2 ∨ (y1 = y2 ∧ (x1 < x2 ∨ (x1 = x2 ∧ z1 < z2))))) ∧
    (pos_key x1 y1 z1 = pos_key x2 y2 z2 ↔ (x1 = x2 ∧ y1 = y2 ∧ z1 = z2)) := by
  rw [pos_key_eq x1 y1 z1 hx1 hz1, pos_key_eq x2 y2 z2 hx2 hz2]
  constructor
  · constructor <;> intro h <;> omega
  · constructor <;> intro h <;> [skip; omega] <;> refine ⟨?_, ?_, ?_⟩ <;> omega

/-- Witness for C4 at concrete coordinates. -/
theorem claim_C4_key_order_witness :
    (pos_key 5 3 200 < pos_key 2 4 0 ↔
      (3 < 4 ∨ (3 = 4 ∧ (5 < 2 ∨ (5 = 2 ∧ 200 < 0))))) ∧
    (pos_key 5 3 200 = pos_key 2 4 0 ↔ (5 = 2 ∧ 3 = 4 ∧ 200 = 0)) :=
  claim_C4_key_order 5 3 200 2 4 0 (by decide) (by decide) (by decide)
    (by decide) (by decide) (by decide)

/-- C5: on an in-bounds coordinate of a map whose record list has no
duplicate keys (an invariant of every map the library builds), setair twice
equals setair once and set twice with the same color equals set once, as
complete map states. -/
theorem claim_C5_idempotence (m : libvxl_map) (x y z : Int) (c : Nat)
    (hin : inMap m x y z)
    (hnd : m.blocks.Pairwise (fun a b => a.position ≠ b.position)) :
    libvxl_map_setair (libvxl_map_setair m x y z) x y z =
      libvxl_map_setair m x y z ∧
    libvxl_map_set (libvxl_map_set m x y z c) x y z c =
      libvxl_map_set m x y z c := by
  constructor
  · have hin2 : inMap
        { m with
          geometry := m.geometry.set (geomIdx m x.toNat y.toNat z.toNat) false,
          blocks := removeKey m.blocks (pos_key x.toNat y.toNat z.toNat) }
        x y z := hin
    rw [setair_unfold m x y z hin, setair_unfold _ x y z hin2]
    simp [geomIdx, List.set_set, removeKey_idem hnd]
  · have hin2 : inMap
        { m with
          geometry := m.geometry.set (geomIdx m x.toNat y.toNat z.toNat) true,
          blocks := upsertBlock m.blocks (pos_key x.toNat y.toNat z.toNat)
            (c % 4294967296) } x y z := hin
    rw [set_unfold m x y z c hin, set_unfold _ x y z c hin2]
    simp [geomIdx, List.set_set, upsertBlock_idem]

/-- Witness for C5 at a concrete map and coordinate. -/
theorem claim_C5_idempotence_witness :
    (libvxl_map_setair
        (libvxl_map_setair (libvxl_map_set (libvxl_create_empty 2 2 2) 0 0 0 7)
          0 0 0) 0 0 0 =
      libvxl_map_setair (libvxl_map_set (libvxl_create_empty 2 2 2) 0 0 0 7)
        0 0 0) ∧
    (libvxl_map_set
        (libvxl_map_set (libvxl_map_set (libvxl_create_empty 2 2 2) 0 0 0 7)
          0 0 1 9) 0 0 1 9 =
      libvxl_map_set (libvxl_map_set (libvxl_create_empty 2 2 2) 0 0 0 7)
        0 0 1 9) :=
  ⟨(claim_C5_idempotence (libvxl_map_set (libvxl_create_empty 2 2 2) 0 0 0 7)
      0 0 0 7 (by decide) (by decide)).1,
   (claim_C5_idempotence (libvxl_map_set (libvxl_create_empty 2 2 2) 0 0 0 7)
      0 0 1 9 (by decide) (by decide)).2⟩

/-- C7: gettop on an in-bounds column that holds no solid voxel at any depth
leaves the caller's result storage (both the color slot and the height slot)
completely unmodified. -/
theorem claim_C7_gettop_untouched (m : libvxl_map) (x y : Int)
    (result : Nat × Nat)
    (hin : 0 ≤ x ∧ x < m.width ∧ 0 ≤ y ∧ y < m.height)
    (hair : ∀ z : Int, libvxl_map_issolid m x y z = false) :
    libvxl_map_gettop m x y result = result := by
  rw [libvxl_map_gettop, if_pos hin]
  have hnone : (List.range m.depth).find?
      (fun z => solidBit m x.toNat y.toNat z) = none := by
    rw [List.find?_eq_none]
    intro z hz
    have hzd : z < m.depth := List.mem_range.mp hz
    have := hair (z : Int)
    rw [libvxl_map_issolid, if_pos ?_] at this
    · simpa using this
    · exact ⟨hin.1, hin.2.1, hin.2.2.1, hin.2.2.2, by omega, by
        exact_mod_cast Int.ofNat_lt.mpr hzd⟩
  rw [hnone]

/-- Witness for C7: a 2x2x2 map whose water voxel in column (0,0) was
cleared, leaving the column fully air. -/
theorem claim_C7_gettop_untouched_witness :
    libvxl_map_gettop (libvxl_map_setair (libvxl_create_empty 2 2 2) 0 0 1)
      0 0 (7, 9) = (7, 9) :=
  claim_C7_gettop_untouched
    (libvxl_map_setair (libvxl_create_empty 2 2 2) 0 0 1) 0 0 (7, 9)
    (by decide)
    (by
      intro z
      by_cases h : inMap (libvxl_map_setair (libvxl_create_empty 2 2 2) 0 0 1)
        0 0 z
      · have hdep : ((libvxl_map_setair (libvxl_create_empty 2 2 2)
            0 0 1).depth : Int) = 2 := by decide
        have hz : z = 0 ∨ z = 1 := by
          obtain ⟨_, _, _, _, h5, h6⟩ := h
          rw [hdep] at h6
          omega
        rcases hz with rfl | rfl <;> decide
      · rw [libvxl_map_issolid, if_neg h])

/-- C8: immediately after set with an in-bounds coordinate and a 32-bit
color, get returns exactly that color and issolid returns true (the length
hypothesis is the bitmap-size invariant every map the library builds
satisfies); instantiating at the empty 512x512x64 map, coordinate
(10,10,10) and color 0xFF00FF gives the spec's scenario. -/
theorem claim_C8_set_get (m : libvxl_map) (x y z : Int) (c : Nat)
    (hin : inMap m x y z)
    (hlen : m.geometry.length = m.width * m.height * m.depth)
    (hc : c < 4294967296) :
    libvxl_map_get (libvxl_map_set m x y z c) x y z = c ∧
    libvxl_map_issolid (libvxl_map_set m x y z c) x y z = true := by
  have h := get_set_self m x y z c hin hlen
  rw [Nat.mod_eq_of_lt hc] at h
  exact h

/-- Witness for C8 at a concrete map, coordinate and color. -/
theorem claim_C8_set_get_witness :
    libvxl_map_get (libvxl_map_set (libvxl_create_empty 2 2 2) 1 1 0 16711935)
      1 1 0 = 16711935 ∧
    libvxl_map_issolid
      (libvxl_map_set (libvxl_create_empty 2 2 2) 1 1 0 16711935) 1 1 0 =
      true :=
  claim_C8_set_get (libvxl_create_empty 2 2 2) 1 1 0 16711935 (by decide)
    (by decide) (by decide)

/-- C10: whenever get reports an absent block — air in bounds or any
out-of-bounds coordinate, both of which make issolid false — it returns the
integer 0, and a block whose stored color is 0 reads back as the same 0, so
the two cases are indistinguishable from the return value alone. -/
theorem claim_C10_no_color_zero (m m2 : libvxl_map) (x y z x2 y2 z2 : Int)
    (hs : libvxl_map_issolid m x y z = false)
    (hin : inMap m2 x2 y2 z2)
    (hlen : m2.geometry.length = m2.width * m2.height * m2.depth) :
    libvxl_map_get m x y z = 0 ∧
    libvxl_map_get (libvxl_map_set m2 x2 y2 z2 0) x2 y2 z2 = 0 := by
  constructor
  · by_cases hin' : inMap m x y z
    · rw [libvxl_map_issolid, if_pos hin'] at hs
      rw [libvxl_map_get, if_pos hin', hs]
      simp
    · rw [libvxl_map_get, if_neg hin']
  · exact (get_set_self m2 x2 y2 z2 0 hin hlen).1

/-- Witness for C10: air voxel read and a zero-colored block read on concrete
maps. -/
theorem claim_C10_no_color_zero_witness :
    libvxl_map_get (libvxl_create_empty 2 2 2) 0 0 0 = 0 ∧
    libvxl_map_get (libvxl_map_set (libvxl_create_empty 2 2 2) 1 0 0 0)
      1 0 0 = 0 :=
  claim_C10_no_color_zero (libvxl_create_empty 2 2 2)
    (libvxl_create_empty 2 2 2) 0 0 0 1 0 0 (by decide) (by decide)
    (by decide)

theorem take_append_of_le_length {α : Type} {n : Nat} {l1 l2 : List α}
    (h : n ≤ l1.length) : (l1 ++ l2).take n = l1.take n := by
  induction l1 generalizing n with
  | nil =>
    have : n = 0 := by simpa using h
    subst this
    simp
  | cons a t ih =>
    cases n with
    | zero => simp
    | succ k =>
      simp only [List.cons_append, List.take_succ_cons]
      rw [ih (by simpa using h)]

theorem drop_append_of_le_length {α : Type} {n : Nat} {l1 l2 : List α}
    (h : n ≤ l1.length) : (l1 ++ l2).drop n = l1.drop n ++ l2 := by
  induction l1 generalizing n with
  | nil =>
    have : n = 0 := by simpa using h
    subst this
    simp
  | cons a t ih =>
    cases n with
    | zero => simp
    | succ k =>
      simp only [List.cons_append, List.drop_succ_cons]
      rw [ih (by simpa using h)]

theorem range_drop_eq_cons {n i : Nat} (h : i < n) :
    (List.range n).drop i = i :: (List.range n).drop (i + 1) := by
  have h2 : i < (List.range n).length := by simpa using h
  have h3 := List.getElem_cons_drop (List.range n) i h2
  rw [← h3, List.getElem_range]

theorem fillPendingGo_spec (m : libvxl_map) (q : Nat) (fuel : Nat) :
    ∀ pending cursor,
      m.width * m.height ≤ cursor + fuel →
      cursor ≤ m.width * m.height →
      (fillPendingGo m q fuel pending cursor).1 ++
        (((List.range (m.width * m.height)).drop
          (fillPendingGo m q fuel pending cursor).2).map (colBytes m)).flatten =
        pending ++ (((List.range (m.width * m.height)).drop cursor).map
          (colBytes m)).flatten ∧
      (fillPendingGo m q fuel pending cursor).2 ≤ m.width * m.height ∧
      (q ≤ (fillPendingGo m q fuel pending cursor).1.length ∨
        m.width * m.height ≤ (fillPendingGo m q fuel pending cursor).2) := by
  induction fuel with
  | zero =>
    intro pending cursor h1 h2
    simp only [fillPendingGo]
    exact ⟨trivial, h2, Or.inr (by omega)⟩
  | succ fuel ih =>
    intro pending cursor h1 h2
    by_cases hstop : q ≤ pending.length ∨ m.width * m.height ≤ cursor
    · rw [fillPendingGo, if_pos hstop]
      exact ⟨rfl, h2, hstop⟩
    · rw [fillPendingGo, if_neg hstop]
      push_neg at hstop
      have hcur : cursor < m.width * m.height := hstop.2
      have hrec := ih (pending ++ colBytes m cursor) (cursor + 1)
        (by omega) (by omega)
      refine ⟨?_, hrec.2.1, hrec.2.2⟩
      rw [hrec.1, range_drop_eq_cons hcur]
      simp

theorem stream_read_spec (s : libvxl_stream)
    (hc : s.cursor ≤ s.map.width * s.map.height) :
    (libvxl_stream_read s).1 = (streamRemaining s).take s.chunk_size ∧
    streamRemaining (libvxl_stream_read s).2 =
      (streamRemaining s).drop s.chunk_size ∧
    (libvxl_stream_read s).2.map = s.map ∧
    (libvxl_stream_read s).2.chunk_size = s.chunk_size ∧
    (libvxl_stream_read s).2.cursor ≤ s.map.width * s.map.height := by
  obtain ⟨hcons, hcur, hexit⟩ := fillPendingGo_spec s.map s.chunk_size
    (s.map.width * s.map.height - s.cursor) s.pending s.cursor (by omega) hc
  have hread : libvxl_stream_read s =
      ((fillPendingGo s.map s.chunk_size
          (s.map.width * s.map.height - s.cursor) s.pending s.cursor).1.take
        s.chunk_size,
       { s with
         cursor := (fillPendingGo s.map s.chunk_size
           (s.map.width * s.map.height - s.cursor) s.pending s.cursor).2,
         pending := (fillPendingGo s.map s.chunk_size
           (s.map.width * s.map.height - s.cursor) s.pending s.cursor).1.drop
           s.chunk_size }) := rfl
  set fc := fillPendingGo s.map s.chunk_size
    (s.map.width * s.map.height - s.cursor) s.pending s.cursor with hfc
  have hrem : streamRemaining s = fc.1 ++
      (((List.range (s.map.width * s.map.height)).drop fc.2).map
        (colBytes s.map)).flatten := by
    rw [streamRemaining, ← hcons]
  rcases hexit with hlen | hend
  · refine ⟨?_, ?_, rfl, rfl, hcur⟩
    · rw [hread, hrem]
      exact (take_append_of_le_length hlen).symm
    · rw [hread, streamRemaining, hrem]
      exact (drop_append_of_le_length hlen).symm
  · have hnil : ((List.range (s.map.width * s.map.height)).drop fc.2) = [] :=
      List.drop_eq_nil_of_le (by simpa using hend)
    refine ⟨?_, ?_, rfl, rfl, hcur⟩
    · rw [hread, hrem, hnil]
      simp
    · rw [hread, streamRemaining, hrem, hnil]
      simp

theorem drainStream_eq (fuel : Nat) :
    ∀ s : libvxl_stream, 0 < s.chunk_size →
      s.cursor ≤ s.map.width * s.map.height →
      (streamRemaining s).length ≤ fuel →
      drainStream fuel s = streamRemaining s := by
  induction fuel with
  | zero =>
    intro s hq hc hlen
    have h0 : streamRemaining s = [] := List.length_eq_zero.mp (by omega)
    rw [drainStream, h0]
  | succ fuel ih =>
    intro s hq hc hlen
    obtain ⟨h1, h2, h3, h4, h5⟩ := stream_read_spec s hc
    rw [drainStream]
    by_cases hrem : streamRemaining s = []
    · have hout : (libvxl_stream_read s).1 = [] := by
        rw [h1, hrem, List.take_nil]
      rw [hout]
      simp [hrem]
    · have hout : (libvxl_stream_read s).1.isEmpty = false := by
        rw [h1, List.isEmpty_eq_false]
        intro hc2
        rcases List.take_eq_nil_iff.mp hc2 with h | h
        · omega
        · exact hrem h
      have hih : drainStream fuel (libvxl_stream_read s).2 =
          streamRemaining (libvxl_stream_read s).2 := by
        apply ih
        · rw [h4]; exact hq
        · rw [h3]; exact h5
        · rw [h2, List.length_drop]
          have : 1 ≤ (streamRemaining s).length := by
            rcases Nat.eq_zero_or_pos (streamRemaining s).length with h | h
            · exact absurd (List.length_eq_zero.mp h) hrem
            · exact h
          omega
      rw [hout]
      simp only [Bool.false_eq_true, if_false]
      rw [hih, h1, h2, List.take_append_drop]

/-- C9: for every map and every positive per-call byte quota, concatenating
the outputs of successive stream_read calls until a call returns zero bytes
reproduces byte-for-byte the output of the non-streaming encoder, and every
individual call returns at most the quota.  The drain fuel is an upper bound
on the number of calls, not part of the modelled state. -/
theorem claim_C9_stream_equals_write (m : libvxl_map) (q : Nat) (hq : 0 < q) :
    drainStream ((libvxl_write m).length + 1) (libvxl_stream_start m q) =
      libvxl_write m ∧
    ∀ s : libvxl_stream, (libvxl_stream_read s).1.length ≤ s.chunk_size := by
  constructor
  · have hrem : streamRemaining (libvxl_stream_start m q) = libvxl_write m := by
      rw [streamRemaining, libvxl_stream_start, libvxl_write]
      simp
    rw [← hrem]
    exact drainStream_eq _ _ hq (Nat.zero_le _) (by rw [hrem]; omega)
  · intro s
    have : (libvxl_stream_read s).1 = (fillPendingGo s.map s.chunk_size
        (s.map.width * s.map.height - s.cursor) s.pending s.cursor).1.take
        s.chunk_size := rfl
    rw [this, List.length_take]
    omega

/-- Witness for C9 at a concrete map and quota 2. -/
theorem claim_C9_stream_equals_write_witness :
    drainStream
      ((libvxl_write (libvxl_map_set (libvxl_create_empty 2 2 3) 0 0 1 7)).length
        + 1)
      (libvxl_stream_start (libvxl_map_set (libvxl_create_empty 2 2 3) 0 0 1 7)
        2) =
      libvxl_write (libvxl_map_set (libvxl_create_empty 2 2 3) 0 0 1 7) ∧
    ∀ s : libvxl_stream, (libvxl_stream_read s).1.length ≤ s.chunk_size :=
  claim_C9_stream_equals_write
    (libvxl_map_set (libvxl_create_empty 2 2 3) 0 0 1 7) 2 (by decide)

/-- C9 counterexample to the unrestricted quota claim: with a zero-byte
quota every stream_read call returns zero bytes, so draining the stream
(stopping at the first zero-byte call) yields the empty buffer, while the
non-streaming encoder's output of this non-trivial 2x2x2 map is 16 bytes —
the claimed byte-for-byte equality fails at quota 0. -/
theorem claim_C9_zero_quota_refuted :
    drainStream ((libvxl_write (libvxl_create_empty 2 2 2)).length + 1)
        (libvxl_stream_start (libvxl_create_empty 2 2 2) 0)
      ≠ libvxl_write (libvxl_create_empty 2 2 2) := by
  decide

theorem getD_range_map {α : Type} (f : Nat → α) {n i : Nat} (h : i < n)
    (dv : α) : ((List.range n).map f).getD i dv = f i := by
  rw [List.getD_eq_getElem?_getD, List.getElem?_map, List.getElem?_range h]
  rfl

theorem getD_rep_append {α : Type} (a b : Nat) (e1 e2 : α) {z : Nat}
    (h1 : a ≤ z) (h2 : z < a + b) (dv : α) :
    (List.replicate a e1 ++ List.replicate b e2).getD z dv = e2 := by
  rw [List.getD_eq_getElem?_getD,
    List.getElem?_append_right (by simpa using h1)]
  have : z - (List.replicate a e1).length < b := by simpa using (by omega : z - a < b)
  rw [List.getElem?_replicate_of_lt this]
  rfl

theorem decodeCol_terminal_airspan (d a : Nat) (ha : a ≤ d) :
    decodeCol d [0, 0, 0, a] =
      some (List.replicate a ((false, none) : ColEntry)
        ++ List.replicate (d - a) ((true, none) : ColEntry), []) := by
  show decodeColGo d 4 0 [0, 0, 0, a] = _
  simp [decodeColGo, readWords, ha]

theorem getD_mem_or {α : Type} (l : List α) (i : Nat) (dv : α) :
    l.getD i dv ∈ l ∨ l.getD i dv = dv := by
  rw [List.getD_eq_getElem?_getD]
  rcases h : l[i]? with _ | x
  · right; rfl
  · left
    have := List.getElem?_mem h
    simpa using this

theorem create_single_airspan (d a : Nat) (ha : a ≤ d) :
    libvxl_create 1 1 d (some [0, 0, 0, a]) =
      some (mapOfCols 1 1 d [List.replicate a ((false, none) : ColEntry)
        ++ List.replicate (d - a) ((true, none) : ColEntry)]) := by
  have hdec : decodeCols d (1 * 1) [0, 0, 0, a] =
      some [List.replicate a ((false, none) : ColEntry)
        ++ List.replicate (d - a) ((true, none) : ColEntry)] := by
    have h1 : (1 : Nat) * 1 = 1 := rfl
    rw [h1]
    simp [decodeCols, decodeCol_terminal_airspan d a ha]
  rw [libvxl_create, hdec]

theorem mapOfCols_blocks_nil (w h d : Nat) (cols : List (List ColEntry))
    (hnone : ∀ col ∈ cols, ∀ e ∈ col, e.2 = none) :
    (mapOfCols w h d cols).blocks = [] := by
  show List.flatMap _ _ = []
  rw [List.flatMap_eq_nil_iff]
  intro y hy
  rw [List.flatMap_eq_nil_iff]
  intro x hx
  rw [List.flatMap_eq_nil_iff]
  intro z hz
  rcases he : ((cols.getD (y * w + x) []).getD z ((false, none) : ColEntry)).2
    with _ | c
  · simp [he]
  · exfalso
    rcases getD_mem_or cols (y * w + x) [] with hmc | hmc
    · rcases getD_mem_or (cols.getD (y * w + x) [])
          z ((false, none) : ColEntry) with hme | hme
      · have := hnone _ hmc _ hme
        rw [this] at he
        exact Option.noConfusion he
      · rw [hme] at he
        exact Option.noConfusion he
    · rw [hmc] at he
      simp at he

/-- C6: decoding a column whose span has zero top colors and zero bottom
colors but a nonzero interior run (here the terminal span header
[0, 0, 0, a] over a depth-d column, interior length d - a > 0) succeeds, and
get reports the fallback color DEFAULT_COLOR (0x674028) for every voxel of
that interior run. -/
theorem claim_C6_fallback_color (d a z : Nat) (ha : a < d) (hz1 : a ≤ z)
    (hz2 : z < d) :
    (libvxl_create 1 1 d (some [0, 0, 0, a])).map
      (fun mm => libvxl_map_get mm 0 0 (z : Int)) = some DEFAULT_COLOR := by
  rw [create_single_airspan d a (Nat.le_of_lt ha), Option.map_some']
  congr 1
  set col := List.replicate a ((false, none) : ColEntry)
    ++ List.replicate (d - a) ((true, none) : ColEntry) with hcol
  have hdep : (mapOfCols 1 1 d [col]).depth = d := rfl
  have hin : inMap (mapOfCols 1 1 d [col]) 0 0 (z : Int) := by
    refine ⟨Int.le_refl 0, ?_, Int.le_refl 0, ?_, Int.natCast_nonneg z, ?_⟩
    · show (0 : Int) < ((1 : Nat) : Int)
      decide
    · show (0 : Int) < ((1 : Nat) : Int)
      decide
    · show (z : Int) < ((d : Nat) : Int)
      exact_mod_cast hz2
  rw [libvxl_map_get, if_pos hin]
  have htn : ((0 : Int)).toNat = 0 := rfl
  have hzn : ((z : Int)).toNat = z := Int.toNat_natCast z
  rw [htn, hzn]
  have hbit : solidBit (mapOfCols 1 1 d [col]) 0 0 z = true := by
    rw [solidBit, geomIdx]
    have hidx : 0 * (mapOfCols 1 1 d [col]).height * (mapOfCols 1 1 d [col]).depth
        + 0 * (mapOfCols 1 1 d [col]).depth + z = z := by
      simp
    rw [hidx]
    show ((List.range (1 * 1 * d)).map _).getD z false = true
    rw [getD_range_map _ (by simpa using hz2)]
    have e1 : z / d % 1 * 1 + z / (1 * d) = 0 := by
      rw [Nat.div_eq_of_lt hz2]
      simp [Nat.div_eq_of_lt hz2]
    rw [e1]
    have e2 : ([col].getD 0 []) = col := rfl
    rw [e2, Nat.mod_eq_of_lt hz2, hcol,
      getD_rep_append a (d - a) _ _ hz1 (by omega) _]
  rw [hbit]
  have hblocks : (mapOfCols 1 1 d [col]).blocks = [] := by
    apply mapOfCols_blocks_nil
    intro c hc e he
    rcases List.mem_singleton.mp hc with rfl
    rcases List.mem_append.mp he with h | h
    · rw [(List.mem_replicate.mp h).2]
    · rw [(List.mem_replicate.mp h).2]
  rw [hblocks]
  simp [blockLookup]

/-- Witness for C6 at depth 4, leading air 1, voxel z = 2. -/
theorem claim_C6_fallback_color_witness :
    (libvxl_create 1 1 4 (some [0, 0, 0, 1])).map
      (fun mm => libvxl_map_get mm 0 0 ((2 : Nat) : Int)) =
      some DEFAULT_COLOR :=
  claim_C6_fallback_color 4 1 2 (by decide) (by decide) (by decide)

theorem ColWF_drop {col : List ColEntry} (h : ColWF col) (k : Nat) :
    ColWF (col.drop k) := by
  obtain ⟨h1, h2, h3⟩ := h
  refine ⟨?_, ?_, ?_⟩
  · intro e he
    exact h1 e (List.mem_of_mem_drop he)
  · intro e he
    exact h2 e (List.mem_of_mem_drop he)
  · intro i hi hget
    have hld : (col.drop k).length = col.length - k := by simp
    have hki : k + i < col.length := by omega
    have hg2 : (col.drop k).get ⟨i, hi⟩ = col.get ⟨k + i, hki⟩ := by
      simp [List.getElem_drop]
    rw [hg2] at hget
    have := h3 (k + i) hki hget
    omega

theorem word32_length (c : Nat) : (word32 c).length = 4 := rfl

theorem flatten_word32_length (cs : List Nat) :
    ((cs.map word32).flatten).length = 4 * cs.length := by
  induction cs with
  | nil => simp
  | cons c cs ih =>
    simp only [List.map_cons, List.flatten_cons, List.length_append, ih,
      word32_length, List.length_cons]
    ring

theorem readWord_word32 (c : Nat) (hc : c < 4294967296) (rest : List Nat) :
    readWord (word32 c ++ rest) = some (c, rest) := by
  show readWord (c % 256 :: c / 256 % 256 :: c / 65536 % 256 ::
    c / 16777216 % 256 :: rest) = _
  rw [readWord]
  have he : c % 256 + c / 256 % 256 * 256 + c / 65536 % 256 * 65536 +
      c / 16777216 % 256 * 16777216 = c := by omega
  rw [he]

theorem readWords_succ_some {k : Nat} {bytes : List Nat} {c : Nat}
    {r : List Nat} (h : readWord bytes = some (c, r)) :
    readWords (k + 1) bytes =
      match readWords k r with
      | none => none
      | some (cs, r2) => some (c :: cs, r2) := by
  rw [readWords, h]

theorem readWords_flatten (cs : List Nat) :
    ∀ (k : Nat), k = cs.length → (∀ c ∈ cs, c < 4294967296) →
    ∀ (rest : List Nat),
      readWords k ((cs.map word32).flatten ++ rest) = some (cs, rest) := by
  induction cs with
  | nil =>
    intro k hk hcs rest
    subst hk
    simp [readWords]
  | cons c cs ih =>
    intro k hk hcs rest
    subst hk
    show readWords (cs.length + 1) ((word32 c ++ (cs.map word32).flatten)
      ++ rest) = _
    rw [List.append_assoc,
      readWords_succ_some (readWord_word32 c (hcs c (List.mem_cons_self _ _)) _),
      ih cs.length rfl (fun c' hc' => hcs c' (List.mem_cons_of_mem _ hc'))]

theorem map_colors_back (l : List ColEntry)
    (h : ∀ e ∈ l, e.1 = true ∧ e.2.isSome = true) :
    (l.map (fun e => e.2.getD 0)).map
      (fun c => ((true, some c) : ColEntry)) = l := by
  induction l with
  | nil => rfl
  | cons e l ih =>
    obtain ⟨he1, he2⟩ := h e (List.mem_cons_self _ _)
    obtain ⟨c, hc⟩ := Option.isSome_iff_exists.mp he2
    simp only [List.map_cons]
    rw [ih (fun e' he' => h e' (List.mem_cons_of_mem _ he'))]
    obtain ⟨ea, eb⟩ := e
    simp_all

theorem takeWhile_air_replicate (col : List ColEntry)
    (h1 : ∀ e ∈ col, e.1 = false → e.2 = none) :
    col.takeWhile (fun e => !e.1) =
      List.replicate (col.takeWhile (fun e => !e.1)).length
        ((false, none) : ColEntry) := by
  rw [List.eq_replicate_iff]
  refine ⟨rfl, ?_⟩
  intro e he
  have hmem : e ∈ col := (List.takeWhile_sublist _).mem he
  have hp := List.mem_takeWhile_imp he
  have hfalse : e.1 = false := by simpa using hp
  have hnone := h1 e hmem hfalse
  obtain ⟨a, b⟩ := e
  simp_all

theorem ColWF_mid {col l1 l2 : List ColEntry}
    (hWF3 : ∀ i, ∀ h : i < col.length,
      col.get ⟨i, h⟩ = ((true, none) : ColEntry) → i + 1 = col.length)
    (hsplit : l1 ++ ((true, none) : ColEntry) :: l2 = col) : l2 = [] := by
  have hlen : l1.length < col.length := by
    rw [← hsplit, List.length_append, List.length_cons]
    omega
  have hget : col.get ⟨l1.length, hlen⟩ = ((true, none) : ColEntry) := by
    have h4 : col[l1.length]? = some ((true, none) : ColEntry) := by
      rw [← hsplit, List.getElem?_append_right (Nat.le_refl l1.length)]
      simp
    have h5 : col[l1.length]? = some (col.get ⟨l1.length, hlen⟩) := by
      rw [List.getElem?_eq_getElem hlen]
      simp
    rw [h5] at h4
    exact Option.some.inj h4
  have h2 := hWF3 l1.length hlen hget
  have h3 : col.length = l1.length + 1 + l2.length := by
    rw [← hsplit, List.length_append, List.length_cons]
    omega
  have h6 : l2.length = 0 := by omega
  exact List.length_eq_zero.mp h6

theorem dropWhile_cons_not {α : Type} (p : α → Bool) (l : List α) (a : α)
    (t : List α) (h : l.dropWhile p = a :: t) : p a = false := by
  induction l with
  | nil => simp at h
  | cons x xs ih =>
    rw [List.dropWhile_cons] at h
    rcases hpx : p x with _ | _
    · rw [hpx] at h
      simp at h
      rw [← h.1]
      exact hpx
    · rw [hpx] at h
      simp at h
      exact ih h

set_option maxRecDepth 4000 in
theorem decode_encode_col (d : Nat) (fuelE : Nat) :
    ∀ (col : List ColEntry) (fuelD pos : Nat) (rest : List Nat),
      col.length < fuelE →
      ColWF col →
      (encodeColGo fuelE col).length ≤ 4 * fuelD →
      pos + col.length = d →
      decodeColGo d fuelD pos (encodeColGo fuelE col ++ rest) =
        some (col, rest) := by
  induction fuelE with
  | zero =>
    intro col fuelD pos rest hlen _ _ _
    omega
  | succ fuelE ih =>
    intro col fuelD pos rest hlen hWF hfD hpos
    obtain ⟨hWF1, hWF2, hWF3⟩ := hWF
    rcases hres : col.dropWhile (fun e => !e.1) with _ | ⟨r, rs⟩
    · -- the whole column is air
      have hallair : ∀ e ∈ col, (!e.1) = true := List.dropWhile_eq_nil_iff.mp hres
      have htw : col.takeWhile (fun e => !e.1) = col :=
        List.takeWhile_eq_self_iff.mpr hallair
      have hcolrep : col =
          List.replicate col.length ((false, none) : ColEntry) := by
        rw [List.eq_replicate_iff]
        refine ⟨rfl, ?_⟩
        intro e he
        have hf : e.1 = false := by simpa using hallair e he
        have hn := hWF1 e he hf
        obtain ⟨a, b⟩ := e
        simp_all
      have hbytes : encodeColGo (fuelE + 1) col = [0, 0, 0, col.length] := by
        simp only [encodeColGo, hres]
        rw [htw]
      have hfd1 : 1 ≤ fuelD := by
        rw [hbytes] at hfD
        simp at hfD
        omega
      obtain ⟨fd, rfl⟩ : ∃ fd, fuelD = fd + 1 := ⟨fuelD - 1, by omega⟩
      rw [hbytes]
      show decodeColGo d (fd + 1) pos (0 :: 0 :: 0 :: col.length :: rest) = _
      rw [decodeColGo]
      simp only [readWords, Option.some_bind]
      rw [if_pos trivial, if_pos (show pos + col.length + 0 + 0 ≤ d by omega)]
      have hd0 : d - (pos + col.length + 0 + 0) = 0 := by omega
      rw [hd0]
      simp [← hcolrep]
    · -- the column has a solid run after the leading air
      have hrsolid : r.1 = true := by
        have h0 := dropWhile_cons_not (fun e => !e.1) col r rs hres
        simpa using h0
      have hsplit1 : col.takeWhile (fun e => !e.1) ++ (r :: rs) = col := by
        rw [← hres]
        exact List.takeWhile_append_dropWhile _ _
      have hmemcol : ∀ e ∈ r :: rs, e ∈ col := by
        intro e he
        rw [← hsplit1]
        exact List.mem_append_right _ he
      have hrunsolid : ∀ e ∈ (r :: rs).takeWhile (fun e => e.1), e.1 = true := by
        intro e he
        simpa using List.mem_takeWhile_imp he
      have hsplit2 : (r :: rs).takeWhile (fun e => e.1) ++
          (r :: rs).dropWhile (fun e => e.1) = r :: rs :=
        List.takeWhile_append_dropWhile _ _
      have hrunlen : 1 ≤ ((r :: rs).takeWhile (fun e => e.1)).length := by
        rw [List.takeWhile_cons_of_pos (by simpa using hrsolid)]
        simp
      have hsplit4 : (((r :: rs).takeWhile (fun e => e.1)).takeWhile
            (fun e => e.2.isSome))
          ++ (((r :: rs).takeWhile (fun e => e.1)).dropWhile
            (fun e => e.2.isSome))
          = (r :: rs).takeWhile (fun e => e.1) :=
        List.takeWhile_append_dropWhile _ _
      have htopsmem : ∀ e ∈ ((r :: rs).takeWhile (fun e => e.1)).takeWhile
          (fun e => e.2.isSome), e.1 = true ∧ e.2.isSome = true := by
        intro e he
        have h1 : e ∈ (r :: rs).takeWhile (fun e => e.1) :=
          (List.takeWhile_sublist _).mem he
        exact ⟨hrunsolid e h1, by simpa using List.mem_takeWhile_imp he⟩
      have htopcolors : ∀ c ∈ (((r :: rs).takeWhile (fun e => e.1)).takeWhile
          (fun e => e.2.isSome)).map (fun e => e.2.getD 0),
          c < 4294967296 := by
        intro c hc
        obtain ⟨e, he, rfl⟩ := List.mem_map.mp hc
        obtain ⟨c', hc'⟩ := Option.isSome_iff_exists.mp (htopsmem e he).2
        have hecol : e ∈ col := hmemcol e
          ((List.takeWhile_sublist _).mem ((List.takeWhile_sublist _).mem he))
        rw [hc']
        simpa using hWF2 e hecol c' hc'
      have hafterS : ((r :: rs).takeWhile (fun e => e.1)).drop
          ((((r :: rs).takeWhile (fun e => e.1)).takeWhile
            (fun e => e.2.isSome)).length)
          = ((r :: rs).takeWhile (fun e => e.1)).dropWhile
            (fun e => e.2.isSome) := by
        have h6 := List.drop_left
          (((r :: rs).takeWhile (fun e => e.1)).takeWhile (fun e => e.2.isSome))
          (((r :: rs).takeWhile (fun e => e.1)).dropWhile (fun e => e.2.isSome))
        rw [hsplit4] at h6
        exact h6
      have hmapback : ((((r :: rs).takeWhile (fun e => e.1)).takeWhile
            (fun e => e.2.isSome)).map (fun e => e.2.getD 0)).map
          (fun c => ((true, some c) : ColEntry))
          = ((r :: rs).takeWhile (fun e => e.1)).takeWhile
            (fun e => e.2.isSome) :=
        map_colors_back _ htopsmem
      have hArep : col.takeWhile (fun e => !e.1) =
          List.replicate (col.takeWhile (fun e => !e.1)).length
            ((false, none) : ColEntry) :=
        takeWhile_air_replicate col hWF1
      rcases hres2 : (r :: rs).dropWhile (fun e => e.1) with _ | ⟨r2, rs2⟩
      · -- CASE terminal: the run reaches the column's last index
        have hrun : (r :: rs).takeWhile (fun e => e.1) = r :: rs := by
          have h5 := hsplit2
          rw [hres2, List.append_nil] at h5
          exact h5
        have hafter01 : (((r :: rs).takeWhile (fun e => e.1)).dropWhile
              (fun e => e.2.isSome)) = []
            ∨ (((r :: rs).takeWhile (fun e => e.1)).dropWhile
              (fun e => e.2.isSome)) = [((true, none) : ColEntry)] := by
          rcases hAS : ((r :: rs).takeWhile (fun e => e.1)).dropWhile
              (fun e => e.2.isSome) with _ | ⟨a0, as0⟩
          · exact Or.inl hAS
          · right
            have ha0mem : a0 ∈ (r :: rs).takeWhile (fun e => e.1) := by
              have h6 : a0 ∈ ((r :: rs).takeWhile (fun e => e.1)).dropWhile
                  (fun e => e.2.isSome) := by
                rw [hAS]
                exact List.mem_cons_self _ _
              exact (List.dropWhile_sublist _).mem h6
            have ha0solid : a0.1 = true := hrunsolid a0 ha0mem
            have ha0n : a0.2 = none := by
              have h0 := dropWhile_cons_not (fun e => e.2.isSome)
                ((r :: rs).takeWhile (fun e => e.1)) a0 as0 hAS
              exact Option.not_isSome_iff_eq_none.mp (by simp [h0])
            have ha0 : a0 = ((true, none) : ColEntry) := by
              obtain ⟨p, q⟩ := a0
              simp only [Prod.mk.injEq]
              exact ⟨by simpa using ha0solid, by simpa using ha0n⟩
            have hsplitcol : (col.takeWhile (fun e => !e.1) ++
                (((r :: rs).takeWhile (fun e => e.1)).takeWhile
                  (fun e => e.2.isSome)))
                ++ (a0 :: as0) = col := by
              rw [List.append_assoc, ← hAS, hsplit4, hrun]
              exact hsplit1
            have has0 := ColWF_mid hWF3 (ha0 ▸ hsplitcol)
            rw [hAS, ha0, has0]
        have htail : ((((r :: rs).takeWhile (fun e => e.1)).drop
            ((((r :: rs).takeWhile (fun e => e.1)).takeWhile
              (fun e => e.2.isSome)).length)).reverse.takeWhile
            (fun e => e.2.isSome)) = [] := by
          rw [hafterS]
          rcases hafter01 with h | h <;> rw [h] <;> simp
        have hbytes : encodeColGo (fuelE + 1) col =
            [0, (((r :: rs).takeWhile (fun e => e.1)).takeWhile
              (fun e => e.2.isSome)).length, 0,
             (col.takeWhile (fun e => !e.1)).length]
            ++ (((((r :: rs).takeWhile (fun e => e.1)).takeWhile
                (fun e => e.2.isSome)).map (fun e => e.2.getD 0)).map
              word32).flatten := by
          simp only [encodeColGo, hres, hres2]
          rw [htail]
          simp
        have h7 := congrArg List.length hsplit1
        have h8 := congrArg List.length hsplit4
        have h9 := congrArg List.length hrun
        rw [List.length_append] at h7 h8
        have hlenafter : col.length =
            (col.takeWhile (fun e => !e.1)).length
            + (((r :: rs).takeWhile (fun e => e.1)).takeWhile
              (fun e => e.2.isSome)).length
            + (((r :: rs).takeWhile (fun e => e.1)).dropWhile
              (fun e => e.2.isSome)).length := by
          omega
        have hblen : (encodeColGo (fuelE + 1) col).length = 4 +
            4 * (((r :: rs).takeWhile (fun e => e.1)).takeWhile
              (fun e => e.2.isSome)).length := by
          have hb := congrArg List.length hbytes
          rw [List.length_append, flatten_word32_length, List.length_map] at hb
          simp only [List.length_cons, List.length_nil] at hb
          omega
        have hfd1 : 1 ≤ fuelD := by omega
        obtain ⟨fd, rfl⟩ : ∃ fd, fuelD = fd + 1 := ⟨fuelD - 1, by omega⟩
        rw [hbytes]
        simp only [List.cons_append, List.nil_append, List.append_assoc]
        rw [decodeColGo,
          readWords_flatten ((((r :: rs).takeWhile (fun e => e.1)).takeWhile
              (fun e => e.2.isSome)).map (fun e => e.2.getD 0))
            ((((r :: rs).takeWhile (fun e => e.1)).takeWhile
              (fun e => e.2.isSome)).length)
            (by simp) htopcolors rest]
        simp only [Option.some_bind, readWords]
        rw [if_pos trivial,
          if_pos (show pos + (col.takeWhile (fun e => !e.1)).length
            + (((r :: rs).takeWhile (fun e => e.1)).takeWhile
              (fun e => e.2.isSome)).length + 0 ≤ d by omega)]
        have hIcnt : d - (pos + (col.takeWhile (fun e => !e.1)).length
            + (((r :: rs).takeWhile (fun e => e.1)).takeWhile
              (fun e => e.2.isSome)).length + 0)
            = (((r :: rs).takeWhile (fun e => e.1)).dropWhile
              (fun e => e.2.isSome)).length := by
          omega
        rw [hIcnt]
        have hback : List.replicate ((((r :: rs).takeWhile (fun e => e.1)).dropWhile
                (fun e => e.2.isSome)).length) ((true, none) : ColEntry)
            = (((r :: rs).takeWhile (fun e => e.1)).dropWhile
              (fun e => e.2.isSome)) := by
          rcases hafter01 with h | h <;> rw [h] <;> rfl
        rw [hmapback, hback]
        refine congrArg (fun l => some (l, rest)) ?_
        rw [List.map_nil, List.append_nil, ← hArep, List.append_assoc,
          hsplit4, hrun]
        exact hsplit1
      · -- CASE non-terminal: air follows the run
        have hrunallsome : ∀ e ∈ (r :: rs).takeWhile (fun e => e.1),
            e.2.isSome = true := by
          intro e he
          by_contra hnot
          have hen : e.2 = none := Option.not_isSome_iff_eq_none.mp
            (by simpa using hnot)
          have hetn : e = ((true, none) : ColEntry) := by
            have hes := hrunsolid e he
            obtain ⟨p, q⟩ := e
            simp only [Prod.mk.injEq]
            exact ⟨by simpa using hes, by simpa using hen⟩
          obtain ⟨t1', t2', ht⟩ := List.append_of_mem he
          have h7 : t1' ++ e :: (t2' ++ (r2 :: rs2)) = r :: rs := by
            rw [← List.cons_append, ← List.append_assoc, ← ht, ← hres2]
            exact hsplit2
          have hsplitcol : (col.takeWhile (fun e => !e.1) ++ t1') ++
              e :: (t2' ++ (r2 :: rs2)) = col := by
            rw [List.append_assoc, h7]
            exact hsplit1
          have h8 := ColWF_mid hWF3 (hetn ▸ hsplitcol)
          simp at h8
        have htopsrun : ((r :: rs).takeWhile (fun e => e.1)).takeWhile
            (fun e => e.2.isSome) = (r :: rs).takeWhile (fun e => e.1) :=
          List.takeWhile_eq_self_iff.mpr hrunallsome
        have hbytes : encodeColGo (fuelE + 1) col =
            [((r :: rs).takeWhile (fun e => e.1)).length + 1,
             (((r :: rs).takeWhile (fun e => e.1)).takeWhile
               (fun e => e.2.isSome)).length, 0,
             (col.takeWhile (fun e => !e.1)).length]
            ++ (((((r :: rs).takeWhile (fun e => e.1)).takeWhile
                (fun e => e.2.isSome)).map (fun e => e.2.getD 0)).map
              word32).flatten
            ++ encodeColGo fuelE (r2 :: rs2) := by
          simp only [encodeColGo, hres, hres2]
        have h7 := congrArg List.length hsplit1
        have h8 := congrArg List.length hsplit2
        have hS := congrArg List.length htopsrun
        rw [List.length_append] at h7 h8
        rw [hres2] at h8
        have hblen : (encodeColGo (fuelE + 1) col).length = 4 +
            4 * (((r :: rs).takeWhile (fun e => e.1)).takeWhile
              (fun e => e.2.isSome)).length
            + (encodeColGo fuelE (r2 :: rs2)).length := by
          have hb := congrArg List.length hbytes
          rw [List.length_append, List.length_append, flatten_word32_length,
            List.length_map] at hb
          simp only [List.length_cons, List.length_nil] at hb
          omega
        have hfd1 : 1 ≤ fuelD := by omega
        obtain ⟨fd, rfl⟩ : ∃ fd, fuelD = fd + 1 := ⟨fuelD - 1, by omega⟩
        have hdropform : (col.takeWhile (fun e => !e.1) ++
            ((r :: rs).takeWhile (fun e => e.1))) ++ (r2 :: rs2) = col := by
          rw [List.append_assoc, ← hres2, hsplit2]
          exact hsplit1
        have hrs2drop : r2 :: rs2 = col.drop ((col.takeWhile (fun e => !e.1)
            ++ ((r :: rs).takeWhile (fun e => e.1))).length) := by
          have h9 := List.drop_left (col.takeWhile (fun e => !e.1)
            ++ ((r :: rs).takeWhile (fun e => e.1))) (r2 :: rs2)
          rw [hdropform] at h9
          exact h9.symm
        have hWFrs2 : ColWF (r2 :: rs2) := by
          rw [hrs2drop]
          exact ColWF_drop ⟨hWF1, hWF2, hWF3⟩ _
        have hlen2 : (r2 :: rs2).length < fuelE := by omega
        have hbudget : (encodeColGo fuelE (r2 :: rs2)).length ≤ 4 * fd := by
          omega
        have hposrec : (pos + (col.takeWhile (fun e => !e.1)).length
            + (((r :: rs).takeWhile (fun e => e.1)).length + 1 - 1))
            + (r2 :: rs2).length = d := by omega
        have hrec := ih (r2 :: rs2) fd
          (pos + (col.takeWhile (fun e => !e.1)).length
            + (((r :: rs).takeWhile (fun e => e.1)).length + 1 - 1))
          rest hlen2 hWFrs2 hbudget hposrec
        rw [hbytes]
        simp only [List.cons_append, List.nil_append, List.append_assoc]
        rw [decodeColGo,
          readWords_flatten ((((r :: rs).takeWhile (fun e => e.1)).takeWhile
              (fun e => e.2.isSome)).map (fun e => e.2.getD 0))
            ((((r :: rs).takeWhile (fun e => e.1)).takeWhile
              (fun e => e.2.isSome)).length)
            (by simp) htopcolors (encodeColGo fuelE (r2 :: rs2) ++ rest)]
        simp only [Option.some_bind, readWords]
        rw [if_neg (show ¬(((r :: rs).takeWhile (fun e => e.1)).length + 1 = 0)
          by omega)]
        rw [if_pos (show (1 + (((r :: rs).takeWhile (fun e => e.1)).takeWhile
              (fun e => e.2.isSome)).length + 0 ≤ ((r :: rs).takeWhile
              (fun e => e.1)).length + 1)
            ∧ pos + (col.takeWhile (fun e => !e.1)).length
              + (((r :: rs).takeWhile (fun e => e.1)).length + 1 - 1) ≤ d
          from ⟨by omega, by omega⟩)]
        rw [hrec, Option.map_some']
        simp only [List.map_nil, List.append_nil]
        have hK : ((r :: rs).takeWhile (fun e => e.1)).length + 1 - 1
            - (((r :: rs).takeWhile (fun e => e.1)).takeWhile
              (fun e => e.2.isSome)).length - 0 = 0 := by omega
        rw [hK, List.replicate_zero, List.append_nil, hmapback, htopsrun,
          ← hArep]
        exact congrArg (fun l => some (l, rest)) hdropform

/-- Decoding the concatenated encodings of a list of well-formed columns of
uniform height `d` recovers the list. -/
theorem decodeCols_encode (d : Nat) (cols : List (List ColEntry))
    (h : ∀ col ∈ cols, ColWF col ∧ col.length = d) :
    decodeCols d cols.length ((cols.map encodeCol).flatten) = some cols := by
  induction cols with
  | nil => rfl
  | cons col cols ih =>
    obtain ⟨hWFc, hlc⟩ := h col (List.mem_cons_self _ _)
    have hla := List.length_append (encodeColGo (col.length + 1) col)
      ((cols.map encodeCol).flatten)
    have hdec : decodeColGo d (encodeColGo (col.length + 1) col
          ++ (cols.map encodeCol).flatten).length 0
        (encodeColGo (col.length + 1) col ++ (cols.map encodeCol).flatten)
        = some (col, (cols.map encodeCol).flatten) :=
      decode_encode_col d (col.length + 1) col _ 0 _ (by omega) hWFc
        (by rw [hla]; omega) (by omega)
    show decodeCols d (cols.length + 1)
      (encodeColGo (col.length + 1) col ++ (cols.map encodeCol).flatten) = _
    rw [decodeCols]
    rw [show decodeCol d (encodeColGo (col.length + 1) col
        ++ (cols.map encodeCol).flatten)
      = some (col, (cols.map encodeCol).flatten) from hdec]
    simp only [Option.some_bind]
    rw [ih (fun c hc => h c (List.mem_cons_of_mem _ hc))]
    rfl

theorem MapInv_create_empty (w h d : Nat) (hw : w ≤ 4096) (hh : h ≤ 4096)
    (hd : d ≤ 256) : MapInv (libvxl_create_empty w h d) := by
  refine ⟨hw, hh, hd, create_empty_geometry_length w h d, List.Pairwise.nil,
    ?_, ?_⟩
  · intro b hb
    simp [libvxl_create_empty] at hb
  · intro x y z hx hy hz hsolid _
    have hx' : x < w := hx
    have hy' : y < h := hy
    have hz' : z < d := hz
    have hidx : x * h * d + y * d + z < w * h * d := geomIdx_lt hx' hy' hz'
    rw [solidBit] at hsolid
    rw [show (libvxl_create_empty w h d).geometry
        = (List.range (w * h * d)).map (fun i => i % d == d - 1) from rfl,
      show geomIdx (libvxl_create_empty w h d) x y z
        = x * h * d + y * d + z from rfl,
      getD_range_map _ hidx] at hsolid
    have hz2 : (x * h * d + y * d + z) % d = z :=
      (geomIdx_decomp hy' hz').2.2
    have hz3 : (x * h * d + y * d + z) % d = d - 1 := by
      simpa using hsolid
    show z + 1 = (libvxl_create_empty w h d).depth
    show z + 1 = d
    omega

theorem solidBit_set_geom (m : libvxl_map) (g : List Bool)
    (bs : List libvxl_block) (a b c : Nat) :
    solidBit { m with geometry := g, blocks := bs } a b c
      = g.getD (geomIdx m a b c) false := rfl

theorem MapInv_set (m : libvxl_map) (x y z : Int) (c : Nat)
    (hinv : MapInv m) : MapInv (libvxl_map_set m x y z c) := by
  by_cases hin : inMap m x y z
  · obtain ⟨h1, h2, h3, h4, h5, h6⟩ := hin
    have hin' : inMap m x y z := ⟨h1, h2, h3, h4, h5, h6⟩
    have hxw : x.toNat < m.width := by omega
    have hyh : y.toNat < m.height := by omega
    have hzd : z.toNat < m.depth := by omega
    have hidx : geomIdx m x.toNat y.toNat z.toNat < m.geometry.length := by
      rw [hinv.hlen]; exact geomIdx_lt hxw hyh hzd
    rw [set_unfold m x y z c hin']
    refine ⟨hinv.hw, hinv.hh, hinv.hd, ?_,
      upsertBlock_pairwise hinv.hnd, ?_, ?_⟩
    · simpa using hinv.hlen
    · intro b hb
      rcases mem_upsertBlock hb with hb1 | hb1
      · obtain ⟨x0, y0, z0, hx0, hy0, hz0, hpos, hcol, hbit⟩ :=
          hinv.hkeys b hb1
        refine ⟨x0, y0, z0, hx0, hy0, hz0, hpos, hcol, ?_⟩
        rw [solidBit_set_geom]
        by_cases hkeq : geomIdx m x0 y0 z0 = geomIdx m x.toNat y.toNat z.toNat
        · rw [hkeq]
          exact getD_set_self hidx _ _
        · rw [getD_set_ne (fun he => hkeq he.symm) _ _]
          exact hbit
      · refine ⟨x.toNat, y.toNat, z.toNat, hxw, hyh, hzd, by rw [hb1], ?_, ?_⟩
        · rw [hb1]
          exact Nat.mod_lt _ (by omega)
        · rw [solidBit_set_geom]
          exact getD_set_self hidx _ _
    · intro x' y' z' hx' hy' hz' hsolid hlook
      have hx2 : x' < m.width := hx'
      have hy2 : y' < m.height := hy'
      have hz2 : z' < m.depth := hz'
      have hsolid2 : (m.geometry.set (geomIdx m x.toNat y.toNat z.toNat)
          true).getD (geomIdx m x' y' z') false = true := hsolid
      have hlook2 : blockLookup (upsertBlock m.blocks
          (pos_key x.toNat y.toNat z.toNat) (c % 4294967296))
          (pos_key x' y' z') = none := hlook
      show z' + 1 = m.depth
      by_cases hkey : pos_key x' y' z' = pos_key x.toNat y.toNat z.toNat
      · rw [hkey, blockLookup_upsert_self] at hlook2
        exact absurd hlook2 (by simp)
      · rw [blockLookup_upsert_ne m.blocks _ hkey] at hlook2
        have hidxne : geomIdx m x.toNat y.toNat z.toNat
            ≠ geomIdx m x' y' z' := by
          intro he
          obtain ⟨e1, e2, e3⟩ := geomIdx_inj hxw hyh hzd hx2 hy2 hz2 he
          exact hkey (by rw [← e1, ← e2, ← e3])
        rw [getD_set_ne hidxne _ _] at hsolid2
        exact hinv.himpl x' y' z' hx2 hy2 hz2 hsolid2 hlook2
  · rw [libvxl_map_set, if_neg hin]
    exact hinv

theorem MapInv_setair (m : libvxl_map) (x y z : Int)
    (hinv : MapInv m) : MapInv (libvxl_map_setair m x y z) := by
  by_cases hin : inMap m x y z
  · obtain ⟨h1, h2, h3, h4, h5, h6⟩ := hin
    have hin' : inMap m x y z := ⟨h1, h2, h3, h4, h5, h6⟩
    have hxw : x.toNat < m.width := by omega
    have hyh : y.toNat < m.height := by omega
    have hzd : z.toNat < m.depth := by omega
    have hidx : geomIdx m x.toNat y.toNat z.toNat < m.geometry.length := by
      rw [hinv.hlen]; exact geomIdx_lt hxw hyh hzd
    rw [setair_unfold m x y z hin']
    refine ⟨hinv.hw, hinv.hh, hinv.hd, ?_,
      removeKey_pairwise hinv.hnd, ?_, ?_⟩
    · simpa using hinv.hlen
    · intro b hb
      have hbm := mem_removeKey hb
      obtain ⟨x0, y0, z0, hx0, hy0, hz0, hpos, hcol, hbit⟩ :=
        hinv.hkeys b hbm
      refine ⟨x0, y0, z0, hx0, hy0, hz0, hpos, hcol, ?_⟩
      rw [solidBit_set_geom]
      have hkne : b.position ≠ pos_key x.toNat y.toNat z.toNat :=
        removeKey_pos_ne hinv.hnd hb
      have hidxne : geomIdx m x.toNat y.toNat z.toNat
          ≠ geomIdx m x0 y0 z0 := by
        intro he
        obtain ⟨e1, e2, e3⟩ := geomIdx_inj hxw hyh hzd hx0 hy0 hz0 he
        apply hkne
        rw [hpos, ← e1, ← e2, ← e3]
      rw [getD_set_ne hidxne _ _]
      exact hbit
    · intro x' y' z' hx' hy' hz' hsolid hlook
      have hx2 : x' < m.width := hx'
      have hy2 : y' < m.height := hy'
      have hz2 : z' < m.depth := hz'
      have hsolid2 : (m.geometry.set (geomIdx m x.toNat y.toNat z.toNat)
          false).getD (geomIdx m x' y' z') false = true := hsolid
      have hlook2 : blockLookup (removeKey m.blocks
          (pos_key x.toNat y.toNat z.toNat)) (pos_key x' y' z') = none := hlook
      show z' + 1 = m.depth
      have hw4 := hinv.hw
      have hh4 := hinv.hh
      have hd4 := hinv.hd
      by_cases hkey : pos_key x' y' z' = pos_key x.toNat y.toNat z.toNat
      · obtain ⟨e1, e2, e3⟩ := pos_key_inj (by omega) (by omega) (by omega)
          (by omega) (by omega) (by omega) hkey
        rw [e1, e2, e3, getD_set_self hidx _ _] at hsolid2
        exact absurd hsolid2 (by simp)
      · have hidxne : geomIdx m x.toNat y.toNat z.toNat
            ≠ geomIdx m x' y' z' := by
          intro he
          obtain ⟨e1, e2, e3⟩ := geomIdx_inj hxw hyh hzd hx2 hy2 hz2 he
          exact hkey (by rw [← e1, ← e2, ← e3])
        rw [getD_set_ne hidxne _ _] at hsolid2
        rw [blockLookup_removeKey_ne hinv.hnd hkey] at hlook2
        exact hinv.himpl x' y' z' hx2 hy2 hz2 hsolid2 hlook2
  · rw [libvxl_map_setair, if_neg hin]
    exact hinv

theorem MapInv_reachable {m : libvxl_map} (h : Reachable m) : MapInv m := by
  induction h with
  | created w h d hw hh hd => exact MapInv_create_empty w h d hw hh hd
  | set m x y z c _ ih => exact MapInv_set m x y z c ih
  | setair m x y z _ ih => exact MapInv_setair m x y z ih

theorem colAt_length (m : libvxl_map) (x y : Nat) :
    (colAt m x y).length = m.depth := by
  simp [colAt]

theorem colAt_getD (m : libvxl_map) (x y z : Nat) (hz : z < m.depth) :
    (colAt m x y).getD z ((false, none) : ColEntry)
      = (solidBit m x y z, blockLookup m.blocks (pos_key x y z)) := by
  rw [colAt, getD_range_map _ hz]

theorem ColWF_colAt (m : libvxl_map) (hinv : MapInv m) (x y : Nat)
    (hx : x < m.width) (hy : y < m.height) : ColWF (colAt m x y) := by
  have hw4 := hinv.hw
  have hh4 := hinv.hh
  have hd4 := hinv.hd
  refine ⟨?_, ?_, ?_⟩
  · intro e he hf
    obtain ⟨z, hz, rfl⟩ := List.mem_map.mp he
    have hz' : z < m.depth := List.mem_range.mp hz
    show blockLookup m.blocks (pos_key x y z) = none
    rcases hl : blockLookup m.blocks (pos_key x y z) with _ | c
    · rfl
    · exfalso
      have hmem := mem_of_blockLookup hl
      obtain ⟨x0, y0, z0, hx0, hy0, hz0, hpos, _, hbit⟩ :=
        hinv.hkeys _ hmem
      obtain ⟨e1, e2, e3⟩ := pos_key_inj (by omega) (by omega) (by omega)
        (by omega) (by omega) (by omega)
        (hpos : pos_key x y z = pos_key x0 y0 z0)
      rw [← e1, ← e2, ← e3] at hbit
      have hfb : solidBit m x y z = false := hf
      rw [hfb] at hbit
      exact Bool.noConfusion hbit
  · intro e he c hc
    obtain ⟨z, hz, rfl⟩ := List.mem_map.mp he
    have hc2 : blockLookup m.blocks (pos_key x y z) = some c := hc
    have hmem := mem_of_blockLookup hc2
    obtain ⟨x0, y0, z0, _, _, _, _, hcol, _⟩ := hinv.hkeys _ hmem
    exact hcol
  · intro i hi hget
    have hi' : i < m.depth := by
      have hcl := colAt_length m x y
      omega
    have hval : (colAt m x y).get ⟨i, hi⟩
        = (solidBit m x y i, blockLookup m.blocks (pos_key x y i)) := by
      simp [colAt, List.get_eq_getElem]
    rw [hval] at hget
    have hbit : solidBit m x y i = true := congrArg Prod.fst hget
    have hlook : blockLookup m.blocks (pos_key x y i) = none :=
      congrArg Prod.snd hget
    have hcl := colAt_length m x y
    have := hinv.himpl x y i hx hy hi' hbit hlook
    omega

theorem colsOf_length (m : libvxl_map) :
    (colsOf m).length = m.width * m.height := by
  simp [colsOf]

theorem write_eq_flat (m : libvxl_map) :
    libvxl_write m = ((colsOf m).map encodeCol).flatten := by
  rw [libvxl_write, colsOf, List.map_map]
  rfl

theorem decodeCols_write (m : libvxl_map) (hinv : MapInv m) :
    decodeCols m.depth (m.width * m.height) (libvxl_write m)
      = some (colsOf m) := by
  rw [write_eq_flat, ← colsOf_length m]
  apply decodeCols_encode
  intro col hc
  simp only [colsOf] at hc
  obtain ⟨i, hi, rfl⟩ := List.mem_map.mp hc
  have hi' : i < m.width * m.height := List.mem_range.mp hi
  have hwpos : 0 < m.width := by
    by_contra hw0
    have hw1 : m.width = 0 := by omega
    rw [hw1] at hi'
    simp at hi'
  exact ⟨ColWF_colAt m hinv _ _ (Nat.mod_lt i hwpos)
    (Nat.div_lt_of_lt_mul hi'), colAt_length m _ _⟩

theorem getD_eq_get {α : Type} (l : List α) (dv : α) {i : Nat}
    (h : i < l.length) : l.getD i dv = l.get ⟨i, h⟩ := by
  rw [List.getD_eq_getElem?_getD, List.getElem?_eq_getElem h]
  rfl

theorem blockLookup_append (l1 l2 : List libvxl_block) (key : Nat) :
    blockLookup (l1 ++ l2) key
      = match blockLookup l1 key with
        | some c => some c
        | none => blockLookup l2 key := by
  induction l1 with
  | nil => rfl
  | cons b bs ih =>
    by_cases hb : b.position = key
    · simp [blockLookup, hb]
    · simp [blockLookup, hb, ih]

theorem blockLookup_flatMap_range (n : Nat) (f : Nat → List libvxl_block)
    (key : Nat) (i : Nat) (hi : i < n)
    (hother : ∀ j, j < n → j ≠ i → ∀ b ∈ f j, b.position ≠ key) :
    blockLookup ((List.range n).flatMap f) key = blockLookup (f i) key := by
  induction n with
  | zero => omega
  | succ n ih =>
    rw [List.range_succ, List.flatMap_append, blockLookup_append]
    by_cases hin : i = n
    · subst hin
      have h1 : blockLookup ((List.range i).flatMap f) key = none := by
        rw [blockLookup_eq_none]
        intro b hb
        obtain ⟨j, hj, hbj⟩ := List.mem_flatMap.mp hb
        have hj' : j < i := List.mem_range.mp hj
        exact hother j (by omega) (by omega) b hbj
      rw [h1, List.flatMap_cons, List.flatMap_nil, List.append_nil]
    · have hi2 : i < n := by omega
      rw [ih hi2 (fun j hj hne => hother j (by omega) hne)]
      rcases hbi : blockLookup (f i) key with _ | c
      · show blockLookup ([n].flatMap f) key = none
        rw [List.flatMap_cons, List.flatMap_nil, List.append_nil]
        rw [blockLookup_eq_none]
        intro b hb
        exact hother n (by omega) (by omega) b hb
      · rfl

theorem solidBit_mapOfCols (w h d : Nat) (cols : List (List ColEntry))
    (x y z : Nat) (hx : x < w) (hy : y < h) (hz : z < d) :
    solidBit (mapOfCols w h d cols) x y z
      = ((cols.getD (y * w + x) []).getD z ((false, none) : ColEntry)).1 := by
  have hgi : x * h * d + y * d + z < w * h * d := geomIdx_lt hx hy hz
  have hdec := geomIdx_decomp (h := h) (d := d) (x := x) hy hz
  show ((List.range (w * h * d)).map (fun i =>
      ((cols.getD (i / d % h * w + i / (h * d)) []).getD (i % d)
        ((false, none) : ColEntry)).1)).getD (x * h * d + y * d + z) false = _
  rw [getD_range_map _ hgi, hdec.1, hdec.2.1, hdec.2.2]

theorem blockLookup_mapOfCols (w h d : Nat) (cols : List (List ColEntry))
    (hw : w ≤ 4096) (hh : h ≤ 4096) (hd : d ≤ 256)
    (x y z : Nat) (hx : x < w) (hy : y < h) (hz : z < d) :
    blockLookup (mapOfCols w h d cols).blocks (pos_key x y z)
      = ((cols.getD (y * w + x) []).getD z ((false, none) : ColEntry)).2 := by
  have hshape : ∀ y' x' z' : Nat,
      ∀ b ∈ ((((cols.getD (y' * w + x') []).getD z'
          ((false, none) : ColEntry)).2.map
          (fun c => libvxl_block.mk (pos_key x' y' z') c)).toList),
      b.position = pos_key x' y' z' := by
    intro y' x' z' b hb
    rcases ho : ((cols.getD (y' * w + x') []).getD z'
        ((false, none) : ColEntry)).2 with _ | c
    · rw [ho] at hb
      simp at hb
    · rw [ho] at hb
      simp at hb
      rw [hb]
  show blockLookup ((List.range h).flatMap fun y0 =>
      (List.range w).flatMap fun x0 => (List.range d).flatMap fun z0 =>
        (((cols.getD (y0 * w + x0) []).getD z0
          ((false, none) : ColEntry)).2.map
          fun c => libvxl_block.mk (pos_key x0 y0 z0) c).toList)
      (pos_key x y z) = _
  rw [blockLookup_flatMap_range h _ (pos_key x y z) y hy (by
    intro j hj hne b hb
    obtain ⟨x1, hx1, hbx⟩ := List.mem_flatMap.mp hb
    obtain ⟨z1, hz1, hbz⟩ := List.mem_flatMap.mp hbx
    have hx1' : x1 < w := List.mem_range.mp hx1
    have hz1' : z1 < d := List.mem_range.mp hz1
    rw [hshape j x1 z1 b hbz]
    intro he
    obtain ⟨_, e2, _⟩ := pos_key_inj (by omega) (by omega) (by omega)
      (by omega) (by omega) (by omega) he
    exact hne e2)]
  show blockLookup ((List.range w).flatMap fun x0 =>
      (List.range d).flatMap fun z0 =>
        (((cols.getD (y * w + x0) []).getD z0
          ((false, none) : ColEntry)).2.map
          fun c => libvxl_block.mk (pos_key x0 y z0) c).toList)
      (pos_key x y z) = _
  rw [blockLookup_flatMap_range w _ (pos_key x y z) x hx (by
    intro j hj hne b hb
    obtain ⟨z1, hz1, hbz⟩ := List.mem_flatMap.mp hb
    have hz1' : z1 < d := List.mem_range.mp hz1
    rw [hshape y j z1 b hbz]
    intro he
    obtain ⟨e1, _, _⟩ := pos_key_inj (by omega) (by omega) (by omega)
      (by omega) (by omega) (by omega) he
    exact hne e1)]
  show blockLookup ((List.range d).flatMap fun z0 =>
      (((cols.getD (y * w + x) []).getD z0
        ((false, none) : ColEntry)).2.map
        fun c => libvxl_block.mk (pos_key x y z0) c).toList)
      (pos_key x y z) = _
  rw [blockLookup_flatMap_range d _ (pos_key x y z) z hz (by
    intro j hj hne b hb
    rw [hshape y x j b hb]
    intro he
    obtain ⟨_, _, e3⟩ := pos_key_inj (by omega) (by omega) (by omega)
      (by omega) (by omega) (by omega) he
    exact hne e3)]
  rcases ho : ((cols.getD (y * w + x) []).getD z
      ((false, none) : ColEntry)).2 with _ | c
  · rfl
  · show blockLookup [libvxl_block.mk (pos_key x y z) c] (pos_key x y z)
      = some c
    simp [blockLookup]

theorem colAt_mapOfCols (w h d : Nat) (cols : List (List ColEntry))
    (hw : w ≤ 4096) (hh : h ≤ 4096) (hd : d ≤ 256)
    (hlen : cols.length = w * h) (hcl : ∀ col ∈ cols, col.length = d)
    (x y : Nat) (hx : x < w) (hy : y < h) :
    colAt (mapOfCols w h d cols) x y = cols.getD (y * w + x) [] := by
  have hidxc : y * w + x < cols.length := by
    rw [hlen]
    calc y * w + x < y * w + w := by omega
      _ = (y + 1) * w := by ring
      _ ≤ h * w := Nat.mul_le_mul (by omega) (Nat.le_refl w)
      _ = w * h := Nat.mul_comm h w
  have hcg : cols.getD (y * w + x) [] = cols.get ⟨y * w + x, hidxc⟩ :=
    getD_eq_get cols [] hidxc
  have hmem : cols.getD (y * w + x) [] ∈ cols := by
    rw [hcg]
    exact List.get_mem _ _ _
  have hclen : (cols.getD (y * w + x) []).length = d := hcl _ hmem
  refine List.ext_getElem ?_ ?_
  · rw [colAt_length, hclen]
    rfl
  · intro z hz1 hz2
    have hzd : z < d := by omega
    have hL : (colAt (mapOfCols w h d cols) x y)[z]
        = (solidBit (mapOfCols w h d cols) x y z,
           blockLookup (mapOfCols w h d cols).blocks (pos_key x y z)) := by
      simp [colAt]
    rw [hL, solidBit_mapOfCols w h d cols x y z hx hy hzd,
      blockLookup_mapOfCols w h d cols hw hh hd x y z hx hy hzd,
      Prod.mk.eta, getD_eq_get _ _ hz2]
    rfl

theorem colsOf_entry (m : libvxl_map) (x y : Nat) (hx : x < m.width)
    (hy : y < m.height) :
    (colsOf m).getD (y * m.width + x) [] = colAt m x y := by
  have hb : y * m.width + x < m.width * m.height := by
    calc y * m.width + x < y * m.width + m.width := by omega
      _ = (y + 1) * m.width := by ring
      _ ≤ m.height * m.width := Nat.mul_le_mul (by omega) (Nat.le_refl _)
      _ = m.width * m.height := Nat.mul_comm _ _
  rw [colsOf, getD_range_map _ hb]
  have hmod : (y * m.width + x) % m.width = x := by
    rw [Nat.mul_comm y m.width, Nat.mul_add_mod]
    exact Nat.mod_eq_of_lt hx
  have hdiv : (y * m.width + x) / m.width = y := by
    rw [Nat.mul_comm y m.width, Nat.mul_add_div (by omega : 0 < m.width),
      Nat.div_eq_of_lt hx]
    omega
  rw [hmod, hdiv]

theorem mapOfCols_colsOf_colAt (m : libvxl_map) (hinv : MapInv m)
    (a b : Nat) (ha : a < m.width) (hb : b < m.height) :
    colAt (mapOfCols m.width m.height m.depth (colsOf m)) a b
      = colAt m a b := by
  have hcl : ∀ col ∈ colsOf m, col.length = m.depth := by
    intro col hc
    simp only [colsOf] at hc
    obtain ⟨i, hi, rfl⟩ := List.mem_map.mp hc
    exact colAt_length m _ _
  rw [colAt_mapOfCols m.width m.height m.depth (colsOf m) hinv.hw hinv.hh
    hinv.hd (colsOf_length m) hcl a b ha hb]
  exact colsOf_entry m a b ha hb

theorem mapOfCols_colsOf_solid (m : libvxl_map) (hinv : MapInv m)
    (a b c : Nat) (ha : a < m.width) (hb : b < m.height) (hc : c < m.depth) :
    solidBit (mapOfCols m.width m.height m.depth (colsOf m)) a b c
      = solidBit m a b c ∧
    blockLookup (mapOfCols m.width m.height m.depth (colsOf m)).blocks
        (pos_key a b c)
      = blockLookup m.blocks (pos_key a b c) := by
  have h2 := congrArg (fun l => l.getD c ((false, none) : ColEntry))
    (mapOfCols_colsOf_colAt m hinv a b ha hb)
  simp only [] at h2
  rw [colAt_getD m a b c hc,
    colAt_getD (mapOfCols m.width m.height m.depth (colsOf m)) a b c hc] at h2
  exact ⟨congrArg Prod.fst h2, congrArg Prod.snd h2⟩

theorem mapOfCols_colsOf_issolid (m : libvxl_map) (hinv : MapInv m)
    (x y z : Int) :
    libvxl_map_issolid (mapOfCols m.width m.height m.depth (colsOf m)) x y z
      = libvxl_map_issolid m x y z := by
  by_cases hin : inMap m x y z
  · obtain ⟨h1, h2, h3, h4, h5, h6⟩ := hin
    have hin' : inMap m x y z := ⟨h1, h2, h3, h4, h5, h6⟩
    have hin2 : inMap (mapOfCols m.width m.height m.depth (colsOf m)) x y z :=
      hin'
    rw [libvxl_map_issolid, libvxl_map_issolid, if_pos hin', if_pos hin2]
    exact (mapOfCols_colsOf_solid m hinv x.toNat y.toNat z.toNat
      (by omega) (by omega) (by omega)).1
  · have hin2 :
        ¬ inMap (mapOfCols m.width m.height m.depth (colsOf m)) x y z := hin
    rw [libvxl_map_issolid, libvxl_map_issolid, if_neg hin, if_neg hin2]

theorem mapOfCols_colsOf_get (m : libvxl_map) (hinv : MapInv m)
    (x y z : Int) :
    libvxl_map_get (mapOfCols m.width m.height m.depth (colsOf m)) x y z
      = libvxl_map_get m x y z := by
  by_cases hin : inMap m x y z
  · obtain ⟨h1, h2, h3, h4, h5, h6⟩ := hin
    have hin' : inMap m x y z := ⟨h1, h2, h3, h4, h5, h6⟩
    have hin2 : inMap (mapOfCols m.width m.height m.depth (colsOf m)) x y z :=
      hin'
    obtain ⟨hsb, hbl⟩ := mapOfCols_colsOf_solid m hinv x.toNat y.toNat z.toNat
      (by omega) (by omega) (by omega)
    rw [libvxl_map_get, libvxl_map_get, if_pos hin', if_pos hin2, hsb, hbl]
  · have hin2 :
        ¬ inMap (mapOfCols m.width m.height m.depth (colsOf m)) x y z := hin
    rw [libvxl_map_get, libvxl_map_get, if_neg hin, if_neg hin2]

/-- C1: serializing any map the library can build (created empty within the
format limits, then mutated by set/setair) and loading the bytes back
succeeds and yields a map that is observationally identical: get, issolid and
onsurface agree with the original at every coordinate, in or out of
bounds. -/
theorem claim_C1_roundtrip (m : libvxl_map) (hm : Reachable m) :
    ∃ m2, libvxl_create m.width m.height m.depth (some (libvxl_write m))
        = some m2 ∧
      ∀ x y z : Int,
        libvxl_map_get m2 x y z = libvxl_map_get m x y z ∧
        libvxl_map_issolid m2 x y z = libvxl_map_issolid m x y z ∧
        libvxl_map_onsurface m2 x y z = libvxl_map_onsurface m x y z := by
  have hinv := MapInv_reachable hm
  refine ⟨mapOfCols m.width m.height m.depth (colsOf m), ?_, ?_⟩
  · show (match decodeCols m.depth (m.width * m.height) (libvxl_write m) with
      | none => none
      | some cols => some (mapOfCols m.width m.height m.depth cols))
      = some (mapOfCols m.width m.height m.depth (colsOf m))
    rw [decodeCols_write m hinv]
  · intro x y z
    refine ⟨mapOfCols_colsOf_get m hinv x y z,
      mapOfCols_colsOf_issolid m hinv x y z, ?_⟩
    simp only [libvxl_map_onsurface, mapOfCols_colsOf_issolid m hinv]

theorem claim_C1_roundtrip_witness :
    ∃ m2, libvxl_create
        (libvxl_map_set (libvxl_create_empty 2 2 3) 0 0 1 7).width
        (libvxl_map_set (libvxl_create_empty 2 2 3) 0 0 1 7).height
        (libvxl_map_set (libvxl_create_empty 2 2 3) 0 0 1 7).depth
        (some (libvxl_write
          (libvxl_map_set (libvxl_create_empty 2 2 3) 0 0 1 7)))
        = some m2 ∧
      ∀ x y z : Int,
        libvxl_map_get m2 x y z
          = libvxl_map_get
            (libvxl_map_set (libvxl_create_empty 2 2 3) 0 0 1 7) x y z ∧
        libvxl_map_issolid m2 x y z
          = libvxl_map_issolid
            (libvxl_map_set (libvxl_create_empty 2 2 3) 0 0 1 7) x y z ∧
        libvxl_map_onsurface m2 x y z
          = libvxl_map_onsurface
            (libvxl_map_set (libvxl_create_empty 2 2 3) 0 0 1 7) x y z :=
  claim_C1_roundtrip _
    (Reachable.set _ 0 0 1 7
      (Reachable.created 2 2 3 (by omega) (by omega) (by omega)))

end Libvxl
